import Mathlib

/-!
# A verification development for the singly linked string queue of `queue.c`

The C code manipulates heap-allocated list elements through pointers.  The
embedding keeps that structure:

* a pointer is an `Option Nat` (`none` is `NULL`, `some a` is the address `a`);
* the heap of list elements is a function from addresses to `Option list_ele_t`
  (`none`: nothing is allocated at that address);
* a C string is the list of its bytes; the terminating NUL is implicit at the
  end of the list, and `strlen` stops at the first zero byte exactly as in C;
* caller-supplied character buffers are functions from offsets to bytes, so that
  a write past the advertised capacity is observable; a `strncpy` that has to
  pad up to `SIZE_MAX` bytes runs off the end of every object and never
  returns: it is reported as `none`;
* `malloc` is an oracle: each insertion receives the outcome of its two
  allocation requests as an argument;
* dereferencing `NULL` or an unallocated address is undefined behaviour and is
  reported as `none`, as is running out of fuel in a loop.
-/

namespace LabQueue

/-! ## Strings and buffers -/

/-- The C library `strlen`: the number of bytes before the first NUL. -/
def strlen : List Nat → Nat
  | [] => 0
  | c :: cs => if c = 0 then 0 else strlen cs + 1

/-- The C library `strncmp` on bytes compared as unsigned values: at most `n`
positions are compared and the comparison stops at a NUL.  Only the sign of the
result is specified by the C standard. -/
def strncmp : List Nat → List Nat → Nat → Int
  | _, _, 0 => 0
  | s1, s2, n + 1 =>
    if s1.headD 0 ≠ s2.headD 0 then (s1.headD 0 : Int) - (s2.headD 0 : Int)
    else if s1.headD 0 = 0 then 0
    else strncmp s1.tail s2.tail n

/-- The C string held in the memory `s`: the bytes before the first NUL. -/
def c_string (s : List Nat) : List Nat :=
  s.take (strlen s)

/-- A character buffer seen from its first byte: offset to byte. -/
abbrev Buf := Nat → Nat

/-- The memory left by a call `strncpy dst src n` that runs to its end:
exactly `n` bytes of `dst` are written, the bytes of `src` up to its
terminator and NUL padding after it. -/
def strncpy_bytes (dst : Buf) (src : List Nat) (n : Nat) : Buf :=
  fun i => if i < n then (if i < strlen src then src.getD i 0 else 0) else dst i

/-- The assignment `sp[i] = c`. -/
def store (dst : Buf) (i c : Nat) : Buf :=
  fun j => if j = i then c else dst j

/-- The first `n` bytes of a buffer. -/
def readBuf (b : Buf) (n : Nat) : List Nat :=
  (List.range n).map b

/-- The C string found in a buffer of capacity `cap`. -/
def buf_string (b : Buf) (cap : Nat) : List Nat :=
  c_string (readBuf b cap)

/-- One more than the largest `size_t` value (64-bit target). -/
def SIZE_MOD : Nat := 2 ^ 64

/-- The `size_t` expression `n - 1`, which wraps around at zero. -/
def size_pred (n : Nat) : Nat :=
  (n + (SIZE_MOD - 1)) % SIZE_MOD

/-- The C library `strncpy dst src n`.  No object holds `SIZE_MAX` bytes, so a
call that has to pad a shorter string up to `n ≥ SIZE_MAX` bytes writes past
the end of every object and never returns; such a call is `none`. -/
def strncpy (dst : Buf) (src : List Nat) (n : Nat) : Option Buf :=
  if SIZE_MOD - 1 ≤ n ∧ strlen src < n then none else some (strncpy_bytes dst src n)

/-! ## Data model -/

/-- Modelled from the spec: the header `queue.h` that declares `list_ele_t` is
missing; an element holds one owned string and a link to the next element
(or none, if last). -/
structure list_ele_t where
  value : List Nat
  next : Option Nat
deriving DecidableEq

/-- Modelled from the spec: the header `queue.h` that declares `queue_t` is
missing; a queue holds a reference to the first element, a reference to the
last element and an integer count of elements.  The count is a C `int`; it is
an unbounded integer here (signed overflow is undefined in C). -/
structure queue_t where
  head : Option Nat
  tail : Option Nat
  size : Int
deriving DecidableEq

/-- The heap of list elements. -/
abbrev Heap := Nat → Option list_ele_t

/-- The memory an operation works on: the list elements and the queue object
behind the pointer `q` (`none` when the pointer is `NULL`). -/
structure State where
  heap : Heap
  q : Option queue_t

/-- The assignment through a pointer: the element at address `a` becomes `e`. -/
def Heap.set (h : Heap) (a : Nat) (e : list_ele_t) : Heap :=
  fun b => if b = a then some e else h b

/-- The call `free(a)` on an element. -/
def Heap.free (h : Heap) (a : Nat) : Heap :=
  fun b => if b = a then none else h b

/-! ## Operations -/

/-- The function `q_new`; `ok` is the outcome of its `malloc`. -/
def q_new (ok : Bool) : Option queue_t :=
  if ok then some { head := none, tail := none, size := 0 } else none

/-- The function `q_insert_head`.  `newh` is the result of the `malloc` of the
element and `value_ok` tells whether the `malloc` of the string succeeds.  The
stored string is the copy made by `strncpy` and the explicit terminator. -/
def q_insert_head (st : State) (s : List Nat) (newh : Option Nat) (value_ok : Bool) :
    State × Bool :=
  match st.q with
  | none => (st, false)
  | some q =>
    match newh with
    | none => (st, false)
    | some a =>
      if value_ok = false then (st, false)
      else
        let e : list_ele_t := { value := c_string s, next := q.head }
        let heap1 := st.heap.set a e
        let q1 : queue_t := { q with head := some a }
        let q2 : queue_t := if q1.size = 0 then { q1 with tail := some a } else q1
        ({ heap := heap1, q := some { q2 with size := q2.size + 1 } }, true)

/-- The function `q_insert_tail`, with the same allocation oracle as
`q_insert_head`.  `q->tail->next = newh` dereferences the tail pointer. -/
def q_insert_tail (st : State) (s : List Nat) (newh : Option Nat) (value_ok : Bool) :
    Option (State × Bool) :=
  match st.q with
  | none => some (st, false)
  | some q =>
    match newh with
    | none => some (st, false)
    | some a =>
      if value_ok = false then some (st, false)
      else
        let e : list_ele_t := { value := c_string s, next := none }
        let heap1 := st.heap.set a e
        if q.size = 0 then
          some ({ heap := heap1,
                  q := some { head := some a, tail := some a, size := q.size + 1 } }, true)
        else
          match q.tail with
          | none => none
          | some t =>
            match heap1 t with
            | none => none
            | some te =>
              some ({ heap := heap1.set t { te with next := some a },
                      q := some { q with tail := some a, size := q.size + 1 } }, true)

/-- The copy-out of `q_remove_head` into a non-NULL buffer `sp`; `none` when
the call of `strncpy` does not return. -/
def copy_out (sp : Buf) (value : List Nat) (bufsize : Nat) : Option Buf :=
  if strlen value > bufsize then
    (strncpy sp value (size_pred bufsize)).map fun b => store b (size_pred bufsize) 0
  else
    (strncpy sp value (strlen value)).map fun b => store b (strlen value) 0

/-- The function `q_remove_head`.  The result holds the new memory, the buffer
behind `sp` (when `sp` is not `NULL`) and the returned flag; it is `none` when
the head pointer dangles or the copy-out does not return. -/
def q_remove_head (st : State) (sp : Option Buf) (bufsize : Nat) :
    Option (State × Option Buf × Bool) :=
  match st.q with
  | none => some (st, sp, false)
  | some q =>
    match q.head with
    | none => some (st, sp, false)
    | some a =>
      match st.heap a with
      | none => none
      | some ele =>
        let q1 : queue_t := { q with head := ele.next, size := q.size - 1 }
        let q2 : queue_t := if q1.size = 0 then { q1 with tail := none } else q1
        match sp with
        | none => some ({ heap := st.heap.free a, q := some q2 }, none, true)
        | some b =>
          (copy_out b ele.value bufsize).map fun b1 =>
            ({ heap := st.heap.free a, q := some q2 }, some b1, true)

/-- The function `q_size`. -/
def q_size (st : State) : Int :=
  match st.q with
  | none => 0
  | some q => q.size

/-- The `while (ele_cur)` loop of `q_reverse`; the result is the heap and the
final `ele_prev`. -/
def q_reverse_loop : Nat → Heap → Option Nat → Option Nat → Option (Heap × Option Nat)
  | 0, _, _, _ => none
  | _ + 1, h, ele_prev, none => some (h, ele_prev)
  | fuel + 1, h, ele_prev, some c =>
    match h c with
    | none => none
    | some e => q_reverse_loop fuel (h.set c { e with next := ele_prev }) (some c) e.next

/-- The function `q_reverse`. -/
def q_reverse (fuel : Nat) (st : State) : Option State :=
  match st.q with
  | none => some st
  | some q =>
    match q.head with
    | none => some st
    | some _ =>
      match q_reverse_loop fuel st.heap none q.head with
      | none => none
      | some (h, ele_prev) =>
        some { heap := h, q := some { q with tail := q.head, head := ele_prev } }

/-- The test `strncmp(left->value, right->value, strlen(left->value)) < 0` of
the merge loop. -/
def left_first (l r : List Nat) : Bool :=
  decide (strncmp l r (strlen l) < 0)

/-- The loop test `!right || (left && strncmp(...) < 0)` of the merge: whether
the next element is taken from `left`.  It reads both strings when both
pointers are non-NULL. -/
def take_left (h : Heap) (left right : Option Nat) : Option Bool :=
  match right with
  | none => some true
  | some r =>
    match left with
    | none => some false
    | some l =>
      match h l, h r with
      | some le, some re => some (left_first le.value re.value)
      | _, _ => none

/-- The body common to both branches of the merge for the chosen element `x`
(`left` or `right`): `if (!merge) start = merge = x; else { merge->next = x;
merge = merge->next; }` followed by the read of `x->next`.  The result is the
heap, the new `start` and the successor of `x`; the new `merge` is `x`. -/
def splice (h : Heap) (start merge : Option Nat) (x : Nat) :
    Option (Heap × Option Nat × Option Nat) :=
  match merge with
  | none => (h x).map fun xe => (h, some x, xe.next)
  | some m =>
    match h m with
    | none => none
    | some me =>
      (h.set m { me with next := some x } x).map fun xe =>
        (h.set m { me with next := some x }, start, xe.next)

/-- The `for (merge = NULL; left || right;)` loop of `q_mergeSort`; the result
is the heap and the final `start`. -/
def merge_loop : Nat → Heap → Option Nat → Option Nat → Option Nat → Option Nat →
    Option (Heap × Option Nat)
  | 0, _, _, _, _, _ => none
  | fuel + 1, h, start, merge, left, right =>
    if left = none ∧ right = none then some (h, start)
    else
      match take_left h left right with
      | none => none
      | some true =>
        match left with
        | none => none
        | some l =>
          match splice h start merge l with
          | none => none
          | some (h1, start1, nx) => merge_loop fuel h1 start1 (some l) nx right
      | some false =>
        match right with
        | none => none
        | some r =>
          match splice h start merge r with
          | none => none
          | some (h1, start1, nx) => merge_loop fuel h1 start1 (some r) left nx

/-- The function `q_mergeSort`.  The chain is split after its first element:
`left` is that single element and `right` is the rest. -/
def q_mergeSort : Nat → Heap → Option Nat → Option (Heap × Option Nat)
  | 0, _, _ => none
  | _ + 1, h, none => some (h, none)
  | fuel + 1, h, some s =>
    match h s with
    | none => none
    | some se =>
      match se.next with
      | none => some (h, some s)
      | some r =>
        match q_mergeSort fuel (h.set s { se with next := none }) (some s) with
        | none => none
        | some (h1, left) =>
          match q_mergeSort fuel h1 (some r) with
          | none => none
          | some (h2, right) => merge_loop fuel h2 (some s) none left right

/-- The `while (elet->next)` loop of `q_sort`: the last element reachable from
`elet`. -/
def last_ele : Nat → Heap → Nat → Option Nat
  | 0, _, _ => none
  | fuel + 1, h, elet =>
    match h elet with
    | none => none
    | some e =>
      match e.next with
      | none => some elet
      | some n => last_ele fuel h n

/-- The function `q_sort`. -/
def q_sort (fuel : Nat) (st : State) : Option State :=
  match st.q with
  | none => some st
  | some q =>
    match q.head with
    | none => some st
    | some _ =>
      if q.size ≤ 1 then some st
      else
        match q_mergeSort fuel st.heap q.head with
        | none => none
        | some (_, none) => none
        | some (h, some hd) =>
          match last_ele fuel h hd with
          | none => none
          | some t => some { heap := h, q := some { q with head := some hd, tail := some t } }

/-! ## Reading a queue -/

/-- The strings met when following `next` links from `p`, until `NULL`. -/
def walk : Nat → Heap → Option Nat → Option (List (List Nat))
  | 0, _, _ => none
  | _ + 1, _, none => some []
  | fuel + 1, h, some a =>
    match h a with
    | none => none
    | some e => (walk fuel h e.next).map (e.value :: ·)

/-- Bytes of an ASCII string literal. -/
def bytes (s : String) : List Nat :=
  s.toList.map Char.toNat

/-! ## Well-formed queues -/

/-- An element of a chain: its address and its string. -/
abbrev Node := Nat × List Nat

/-- The addresses of a list of elements. -/
def addrs (nodes : List Node) : List Nat :=
  nodes.map Prod.fst

/-- The strings of a list of elements. -/
def strings (nodes : List Node) : List (List Nat) :=
  nodes.map Prod.snd

/-- Following `next` links in `h` from `p` visits exactly `nodes`, in this
order, and then reaches `NULL`. -/
def chain (h : Heap) : Option Nat → List Node → Prop
  | p, [] => p = none
  | p, n :: rest => p = some n.1 ∧ ∃ nx, h n.1 = some { value := n.2, next := nx } ∧ chain h nx rest

/-- The pointer to the first element of a list of elements. -/
def first_ptr (nodes : List Node) : Option Nat :=
  nodes.head?.map Prod.fst

/-- The pointer to the last element of a list of elements. -/
def last_ptr (nodes : List Node) : Option Nat :=
  nodes.getLast?.map Prod.fst

/-- The queue behind `q` is well formed and holds exactly `nodes` from head to
tail: the chain from `head` is `nodes` and ends in `NULL`, `tail` is the last
element and `size` is the number of elements. -/
def WF (st : State) (nodes : List Node) : Prop :=
  ∃ q, st.q = some q ∧ chain st.heap q.head nodes ∧ q.tail = last_ptr nodes ∧
    q.size = (nodes.length : Int)

/-! ## The order computed by the sort, sequences of calls, and example queues -/

/-- The choice made by the merge loop between the first elements of its two
chains: `true` when the left one is taken. -/
def node_first (x y : Node) : Bool :=
  left_first x.2 y.2

/-- What the merge of `q_mergeSort` does with its single left element `x` and
the already sorted rest: `x` goes before the first element it tests smaller
than. -/
def insert_node (x : Node) : List Node → List Node
  | [] => [x]
  | y :: r => if node_first x y then x :: y :: r else y :: insert_node x r

/-- The order in which `q_mergeSort` leaves the elements of a chain. -/
def sort_nodes : List Node → List Node
  | [] => []
  | x :: xs => insert_node x (sort_nodes xs)

/-- One call of `q_insert_tail` per entry of the list, in order: the string of
the entry is inserted, its element is allocated at the address of the entry
and both allocations succeed.  The result is the final memory and the flags
returned by the calls. -/
def insert_tail_all : State → List Node → Option (State × List Bool)
  | st, [] => some (st, [])
  | st, x :: xs =>
    match q_insert_tail st x.2 (some x.1) true with
    | none => none
    | some (st1, ok) => (insert_tail_all st1 xs).map fun r => (r.1, ok :: r.2)

/-- One call of `q_insert_head` per entry of the list, in order, as in
`insert_tail_all`. -/
def insert_head_all : State → List Node → State × List Bool
  | st, [] => (st, [])
  | st, x :: xs =>
    ((insert_head_all (q_insert_head st x.2 (some x.1) true).1 xs).1,
      (q_insert_head st x.2 (some x.1) true).2 ::
        (insert_head_all (q_insert_head st x.2 (some x.1) true).1 xs).2)

/-- The call `q_remove_head(q, sp, bufsize)` made `n` times in a row with the
same buffer.  The result is the final memory and, for each call, the returned
flag and the buffer as the call left it. -/
def remove_head_n (bufsize : Nat) : Nat → State → Buf → Option (State × List (Bool × Buf))
  | 0, st, _ => some (st, [])
  | n + 1, st, sp =>
    match q_remove_head st (some sp) bufsize with
    | some (st1, some b, ok) =>
      (remove_head_n bufsize n st1 b).map fun r => (r.1, (ok, b) :: r.2)
    | _ => none

/-- The concrete two-element queue `["a", "b"]` at addresses 1 and 2. -/
def demo_heap2 : Heap :=
  fun a => if a = 1 then some { value := [97], next := some 2 }
    else if a = 2 then some { value := [98], next := none } else none

/-- The queue object of the two-element example. -/
def demo_state2 : State :=
  { heap := demo_heap2, q := some { head := some 1, tail := some 2, size := 2 } }

/-- The memory with no list element and a freshly created queue. -/
def fresh_state : State :=
  { heap := fun _ => none, q := q_new true }

/-- The queue `["ab", "abc"]`, built by two calls of `q_insert_tail` on a
freshly created queue (elements at addresses 1 and 2). -/
def ab_abc_state : Option State :=
  (q_insert_tail fresh_state (bytes "ab") (some 1) true).bind fun r =>
    (q_insert_tail r.1 (bytes "abc") (some 2) true).map Prod.fst

/-- The queue `["banana", "apple", "cherry"]`, built by three calls of
`q_insert_tail` on a freshly created queue. -/
def fruit_state : Option State :=
  (q_insert_tail fresh_state (bytes "banana") (some 1) true).bind fun r1 =>
    (q_insert_tail r1.1 (bytes "apple") (some 2) true).bind fun r2 =>
      (q_insert_tail r2.1 (bytes "cherry") (some 3) true).map Prod.fst

/-- The strings of the queue from head to tail. -/
def q_strings (fuel : Nat) (st : State) : Option (List (List Nat)) :=
  walk fuel st.heap (st.q.bind queue_t.head)

/-- The concrete two-element queue `["b", "a"]` at addresses 1 and 2. -/
def demo_heap_ba : Heap :=
  fun a => if a = 1 then some { value := [98], next := some 2 }
    else if a = 2 then some { value := [97], next := none } else none

/-- The queue object of the example `["b", "a"]`. -/
def demo_state_ba : State :=
  { heap := demo_heap_ba, q := some { head := some 1, tail := some 2, size := 2 } }

/-- The one-element queue `["hello"]`, built by `q_insert_head` on a freshly
created queue. -/
def hello_state : State :=
  (q_insert_head fresh_state (bytes "hello") (some 1) true).1

/-- The one-element queue `["abcd"]`, built by `q_insert_head` on a freshly
created queue. -/
def abcd_state : State :=
  (q_insert_head fresh_state (bytes "abcd") (some 1) true).1

/-- The one-element queue `[""]`, built by `q_insert_head` on a freshly created
queue. -/
def empty_string_state : State :=
  (q_insert_head fresh_state [] (some 1) true).1

/-- A caller buffer whose bytes are all `0xFF` before the call. -/
def ff_buf : Buf :=
  fun _ => 255

/-- The elements created by inserting the entries `xs`: each holds the copy of
its string. -/
def stored (xs : List Node) : List Node :=
  xs.map fun x => (x.1, c_string x.2)

/-! ## Sequences of calls, the invariant of the data model, and instrumentation -/

/-- One call on the queue, with the results of its allocation requests. -/
inductive Op where
  | insert_head (s : List Nat) (newh : Option Nat) (value_ok : Bool)
  | insert_tail (s : List Nat) (newh : Option Nat) (value_ok : Bool)
  | remove_head (sp : Option Buf) (bufsize : Nat)

/-- Whether the call is an insertion. -/
def Op.is_insert : Op → Bool
  | .insert_head _ _ _ => true
  | .insert_tail _ _ _ => true
  | .remove_head _ _ => false

/-- The call made on the memory `st`: the new memory and the returned flag. -/
def Op.call (st : State) : Op → Option (State × Bool)
  | .insert_head s newh value_ok => some (q_insert_head st s newh value_ok)
  | .insert_tail s newh value_ok => q_insert_tail st s newh value_ok
  | .remove_head sp bufsize => (q_remove_head st sp bufsize).map fun r => (r.1, r.2.2)

/-- The contract of `malloc`: the address it returns is not allocated. -/
def fresh_addr (h : Heap) (newh : Option Nat) : Bool :=
  match newh with
  | none => true
  | some a => (h a).isNone

/-- The contract of `malloc` for the allocation made by a call. -/
def Op.fresh (st : State) : Op → Bool
  | .insert_head _ newh _ => fresh_addr st.heap newh
  | .insert_tail _ newh _ => fresh_addr st.heap newh
  | .remove_head _ _ => true

/-- The calls that are certain to return: all but a removal into a non-NULL
buffer of capacity zero, whose copy-out may not return (see `copy_out`). -/
def Op.safe : Op → Bool
  | .remove_head (some _) 0 => false
  | _ => true

/-- Every call of the sequence is certain to return. -/
def safe_ops (ops : List Op) : Bool :=
  ops.all Op.safe

/-- The calls made in order: the final memory and the flags returned. -/
def run_ops : State → List Op → Option (State × List Bool)
  | st, [] => some (st, [])
  | st, op :: ops =>
    match op.call st with
    | none => none
    | some (st1, ok) => (run_ops st1 ops).map fun r => (r.1, ok :: r.2)

/-- The contract of `malloc` along a sequence of calls. -/
def fresh_ops : State → List Op → Bool
  | _, [] => true
  | st, op :: ops =>
    op.fresh st &&
      match op.call st with
      | none => true
      | some (st1, _) => fresh_ops st1 ops

/-- The number of insertions that returned `true` minus the number of removals
that returned `true`. -/
def net_count : List Op → List Bool → Int
  | op :: ops, ok :: oks =>
    (if ok then (if op.is_insert then 1 else -1) else 0) + net_count ops oks
  | _, _ => 0

/-- The invariants of the data model, in the words of the specification, for
the queue behind a non-NULL pointer: the count is zero iff the head reference
is absent iff the tail reference is absent; if the count is one, head and tail
reference the same element; following `next` links from head visits exactly
`count` elements, the last of which is the tail, and then terminates; the
`next` link of the tail is absent. -/
def queue_invariant (st : State) : Prop :=
  ∃ q, st.q = some q ∧
    (q.size = 0 ↔ q.head = none) ∧ (q.head = none ↔ q.tail = none) ∧
    (q.size = 1 → q.head = q.tail) ∧
    (∃ nodes, chain st.heap q.head nodes ∧ (nodes.length : Int) = q.size ∧
      last_ptr nodes = q.tail) ∧
    (∀ t, q.tail = some t → ∃ e, st.heap t = some e ∧ e.next = none)

/-- A sequence of calls on a fresh queue: two successful insertions, a removal,
an insertion whose allocation fails, two removals and a removal on the empty
queue. -/
def demo_ops : List Op :=
  [Op.insert_head (bytes "a") (some 1) true, Op.insert_tail (bytes "b") (some 2) true,
   Op.remove_head (some ff_buf) 4, Op.insert_tail (bytes "c") none true,
   Op.remove_head none 0, Op.remove_head (some ff_buf) 4, Op.remove_head (some ff_buf) 4]

/-- The elements met when following `next` links from `p`, until `NULL`: the
address and the string of each. -/
def walk_nodes : Nat → Heap → Option Nat → Option (List Node)
  | 0, _, _ => none
  | _ + 1, _, none => some []
  | fuel + 1, h, some a =>
    match h a with
    | none => none
    | some e => (walk_nodes fuel h e.next).map ((a, e.value) :: ·)

/-- The elements of the queue from head to tail. -/
def q_nodes (fuel : Nat) (st : State) : Option (List Node) :=
  walk_nodes fuel st.heap (st.q.bind queue_t.head)

/-- The queue `["a", "a"]`, built by two calls of `q_insert_tail` on a freshly
created queue: the first inserted element is at address 1, the second at
address 2. -/
def aa_state : Option State :=
  (q_insert_tail fresh_state (bytes "a") (some 1) true).bind fun r =>
    (q_insert_tail r.1 (bytes "a") (some 2) true).map Prod.fst

/-- The concrete two-element queue `["a", "a"]` at addresses 1 and 2. -/
def demo_heap_aa : Heap :=
  fun a => if a = 1 then some { value := [97], next := some 2 }
    else if a = 2 then some { value := [97], next := none } else none

/-- The queue object of the example `["a", "a"]`. -/
def demo_state_aa : State :=
  { heap := demo_heap_aa, q := some { head := some 1, tail := some 2, size := 2 } }

/-- The function `q_mergeSort` once more, counting frames: the third component
of the result is the greatest number of calls of `q_mergeSort` that are active
at the same time during the call (1 for a call that returns at once, one more
than the deeper of its two recursive calls otherwise). -/
def q_mergeSort_frames : Nat → Heap → Option Nat → Option (Heap × Option Nat × Nat)
  | 0, _, _ => none
  | _ + 1, h, none => some (h, none, 1)
  | fuel + 1, h, some s =>
    match h s with
    | none => none
    | some se =>
      match se.next with
      | none => some (h, some s, 1)
      | some r =>
        match q_mergeSort_frames fuel (h.set s { se with next := none }) (some s) with
        | none => none
        | some (h1, left, d1) =>
          match q_mergeSort_frames fuel h1 (some r) with
          | none => none
          | some (h2, right, d2) =>
            (merge_loop fuel h2 (some s) none left right).map fun m =>
              (m.1, m.2, 1 + max d1 d2)

/-- A chain of four elements `"d", "c", "b", "a"` at addresses 1 to 4. -/
def demo_heap4 : Heap :=
  fun a => if a = 1 then some { value := [100], next := some 2 }
    else if a = 2 then some { value := [99], next := some 3 }
    else if a = 3 then some { value := [98], next := some 4 }
    else if a = 4 then some { value := [97], next := none } else none

/-- The C library `strcmp`, the comparison that is not bounded by a length: it
stops at the first difference or at the terminator.  Only the sign of the
result is specified by the C standard. -/
def strcmp : List Nat → List Nat → Int
  | [], s2 => 0 - (s2.headD 0 : Int)
  | c :: cs, s2 =>
    if c ≠ s2.headD 0 then (c : Int) - (s2.headD 0 : Int)
    else if c = 0 then 0
    else strcmp cs s2.tail

/-! ## Theorems -/

/-! ### Chains of elements -/

theorem chain_first {h : Heap} {p : Option Nat} {nodes : List Node} (hc : chain h p nodes) :
    p = first_ptr nodes := by
  cases nodes with
  | nil => simpa [chain, first_ptr] using hc
  | cons n rest => simpa [first_ptr] using hc.1

theorem chain_frame {h h' : Heap} {nodes : List Node} :
    ∀ {p : Option Nat}, (∀ a ∈ addrs nodes, h' a = h a) → chain h p nodes → chain h' p nodes := by
  induction nodes with
  | nil => intro p _ hc; exact hc
  | cons n rest ih =>
    intro p hfr hc
    obtain ⟨hp, nx, hn, hrest⟩ := hc
    refine ⟨hp, nx, ?_, ih (fun a ha => hfr a (by simp [addrs] at ha ⊢; exact Or.inr ha)) hrest⟩
    rw [hfr n.1 (by simp [addrs])]; exact hn

theorem chain_functional {h : Heap} {l1 : List Node} :
    ∀ {l2 : List Node} {p : Option Nat}, chain h p l1 → chain h p l2 → l1 = l2 := by
  induction l1 with
  | nil =>
    intro l2 p h1 h2
    cases l2 with
    | nil => rfl
    | cons n rest =>
      have h1' : p = none := h1
      rw [h1'] at h2; exact absurd h2.1 (by simp)
  | cons n rest ih =>
    intro l2 p h1 h2
    obtain ⟨hp, nx, hn, hrest⟩ := h1
    cases l2 with
    | nil =>
      have h2' : p = none := h2
      rw [h2'] at hp; exact absurd hp (by simp)
    | cons n2 rest2 =>
      obtain ⟨hp2, nx2, hn2, hrest2⟩ := h2
      have e1 : n.1 = n2.1 := by rw [hp] at hp2; exact Option.some.inj hp2
      rw [e1, hn2] at hn
      have e2 := Option.some.inj hn
      have e3 : n2.2 = n.2 := congrArg list_ele_t.value e2
      have e4 : nx2 = nx := congrArg list_ele_t.next e2
      subst e4
      have := ih hrest hrest2
      subst this
      congr 1
      exact Prod.ext e1 e3.symm

theorem chain_suffix {h : Heap} {l1 : List Node} :
    ∀ {l2 : List Node} {p : Option Nat}, chain h p (l1 ++ l2) → ∃ p', chain h p' l2 := by
  induction l1 with
  | nil => intro l2 p hc; exact ⟨p, hc⟩
  | cons n rest ih =>
    intro l2 p hc
    obtain ⟨_, nx, _, hrest⟩ := hc
    exact ih hrest

theorem chain_not_mem_tail {h : Heap} {n : Node} {rest : List Node} {p : Option Nat}
    (hc : chain h p (n :: rest)) : n.1 ∉ addrs rest := by
  intro hmem
  obtain ⟨m, hm, hm1⟩ := List.mem_map.1 hmem
  obtain ⟨l1, l2, hsplit⟩ := List.append_of_mem hm
  obtain ⟨_, nx, _, hrest⟩ := id hc
  rw [hsplit] at hrest
  obtain ⟨p', hp'⟩ := chain_suffix hrest
  have hp1 : p' = some n.1 := by rw [← hm1]; exact hp'.1
  have hp0 : p = some n.1 := hc.1
  rw [hp1, ← hp0] at hp'
  have := chain_functional hc hp'
  have hlen := congrArg List.length this
  rw [hsplit] at hlen
  simp at hlen
  omega

theorem chain_nodup {h : Heap} {nodes : List Node} :
    ∀ {p : Option Nat}, chain h p nodes → (addrs nodes).Nodup := by
  induction nodes with
  | nil => intro p _; simp [addrs]
  | cons n rest ih =>
    intro p hc
    have hnm := chain_not_mem_tail hc
    obtain ⟨_, nx, _, hrest⟩ := hc
    have := ih hrest
    simp only [addrs, List.map_cons, List.nodup_cons]
    exact ⟨hnm, this⟩

theorem heap_set_same (h : Heap) (a : Nat) (e : list_ele_t) : h.set a e a = some e := by
  simp [Heap.set]

theorem heap_set_other (h : Heap) {a b : Nat} (e : list_ele_t) (hne : b ≠ a) :
    h.set a e b = h b := by
  simp [Heap.set, hne]

theorem chain_set_of_not_mem {h : Heap} {nodes : List Node} {p : Option Nat} {a : Nat}
    (e : list_ele_t) (hna : a ∉ addrs nodes) (hc : chain h p nodes) :
    chain (h.set a e) p nodes :=
  chain_frame (fun _ hb => heap_set_other h e (fun hba => hna (hba ▸ hb))) hc

/-! ### Reversal -/

/-- The loop of `q_reverse` turns the chain `nodes` from `cur`, with the
already reversed chain `done` behind `prev`, into the chain
`nodes.reverse ++ done`, and touches no other element. -/
theorem q_reverse_loop_spec (nodes : List Node) :
    ∀ (done : List Node) (h : Heap) (prev cur : Option Nat) (fuel : Nat),
      chain h cur nodes → chain h prev done →
      (∀ a ∈ addrs nodes, a ∉ addrs done) → nodes.length < fuel →
      ∃ h' p', q_reverse_loop fuel h prev cur = some (h', p') ∧
        chain h' p' (nodes.reverse ++ done) ∧
        (∀ a, a ∉ addrs nodes → h' a = h a) := by
  induction nodes with
  | nil =>
    intro done h prev cur fuel hc hd _ hf
    have hcur : cur = none := hc
    subst hcur
    obtain ⟨f, rfl⟩ : ∃ f, fuel = f + 1 := ⟨fuel - 1, by simp at hf; omega⟩
    exact ⟨h, prev, by simp [q_reverse_loop], by simpa using hd, fun _ _ => rfl⟩
  | cons n rest ih =>
    intro done h prev cur fuel hc hd hdisj hf
    have hnm := chain_not_mem_tail hc
    obtain ⟨hcur, nx, hn, hrest⟩ := hc
    subst hcur
    obtain ⟨f, rfl⟩ : ∃ f, fuel = f + 1 := ⟨fuel - 1, by simp at hf; omega⟩
    have hnd : n.1 ∉ addrs done := hdisj n.1 (by simp [addrs])
    have hc1 : chain (h.set n.1 { value := n.2, next := prev }) (some n.1) (n :: done) :=
      ⟨rfl, prev, heap_set_same _ _ _, chain_set_of_not_mem _ hnd hd⟩
    have hc2 : chain (h.set n.1 { value := n.2, next := prev }) nx rest :=
      chain_set_of_not_mem _ hnm hrest
    have hdisj2 : ∀ a ∈ addrs rest, a ∉ addrs (n :: done) := by
      intro a ha hmem
      simp only [addrs, List.map_cons, List.mem_cons] at hmem
      rcases hmem with h1 | h1
      · exact hnm (h1 ▸ ha)
      · exact hdisj a (by simp only [addrs, List.map_cons, List.mem_cons]; exact Or.inr ha) h1
    obtain ⟨h', p', hrun, hch, hfr⟩ :=
      ih (n :: done) _ (some n.1) nx f hc2 hc1 hdisj2 (by simp at hf; omega)
    refine ⟨h', p', ?_, ?_, ?_⟩
    · simp only [q_reverse_loop, hn]
      exact hrun
    · simpa using hch
    · intro a ha
      have ha1 : a ≠ n.1 := fun e => ha (by simp [addrs, e])
      have ha2 : a ∉ addrs rest := fun e => ha (by
        simp only [addrs, List.map_cons, List.mem_cons]; exact Or.inr e)
      rw [hfr a ha2, heap_set_other _ _ ha1]

theorem chain_last_next {h : Heap} {nodes : List Node} :
    ∀ {p : Option Nat}, chain h p nodes → ∀ t, last_ptr nodes = some t →
      ∃ v, h t = some { value := v, next := none } := by
  induction nodes with
  | nil => intro p _ t ht; simp [last_ptr] at ht
  | cons n rest ih =>
    intro p hc t ht
    obtain ⟨_, nx, hn, hrest⟩ := hc
    cases rest with
    | nil =>
      have hnx : nx = none := hrest
      subst hnx
      simp [last_ptr] at ht
      subst ht
      exact ⟨n.2, hn⟩
    | cons m rest2 =>
      apply ih hrest t
      simpa [last_ptr, List.getLast?_cons_cons] using ht

theorem first_ptr_reverse (nodes : List Node) : first_ptr nodes.reverse = last_ptr nodes := by
  simp [first_ptr, last_ptr, List.head?_reverse]

theorem last_ptr_reverse (nodes : List Node) : last_ptr nodes.reverse = first_ptr nodes := by
  simp [first_ptr, last_ptr, List.getLast?_reverse]

theorem chain_agree {h1 h2 : Heap} {nodes : List Node} :
    ∀ {p1 p2 : Option Nat}, chain h1 p1 nodes → chain h2 p2 nodes →
      ∀ a ∈ addrs nodes, h1 a = h2 a := by
  induction nodes with
  | nil => intro _ _ _ _ a ha; simp [addrs] at ha
  | cons n rest ih =>
    intro p1 p2 hc1 hc2 a ha
    obtain ⟨_, nx1, hn1, hr1⟩ := hc1
    obtain ⟨_, nx2, hn2, hr2⟩ := hc2
    simp only [addrs, List.map_cons, List.mem_cons] at ha
    rcases ha with rfl | ha
    · rw [hn1, hn2, chain_first hr1, chain_first hr2]
    · exact ih hr1 hr2 a ha

/-- What `q_reverse` does to a well-formed queue. -/
theorem q_reverse_spec {st : State} {nodes : List Node} {fuel : Nat}
    (hwf : WF st nodes) (hf : nodes.length < fuel) :
    ∃ st', q_reverse fuel st = some st' ∧ WF st' nodes.reverse ∧
      (∀ a, a ∉ addrs nodes → st'.heap a = st.heap a) := by
  obtain ⟨q, hq, hch, htail, hsize⟩ := hwf
  cases nodes with
  | nil =>
    have hhead : q.head = none := hch
    refine ⟨st, ?_, ⟨q, hq, hch, htail, hsize⟩, fun _ _ => rfl⟩
    simp [q_reverse, hq, hhead]
  | cons n rest =>
    have hhead : q.head = some n.1 := hch.1
    obtain ⟨h', p', hrun, hch', hfr⟩ :=
      q_reverse_loop_spec (n :: rest) [] st.heap none q.head fuel hch rfl
        (fun _ _ => by simp [addrs]) hf
    rw [List.append_nil] at hch'
    refine ⟨{ heap := h', q := some { q with tail := q.head, head := p' } }, ?_, ?_, hfr⟩
    · simp only [q_reverse, hq]
      rw [hhead] at hrun ⊢
      simp only [hrun]
    · refine ⟨_, rfl, hch', ?_, ?_⟩
      · rw [last_ptr_reverse]; exact chain_first hch
      · simpa using hsize

theorem WF_q_eq {st st' : State} {nodes : List Node} (h1 : WF st nodes) (h2 : WF st' nodes) :
    st'.q = st.q := by
  obtain ⟨q, hq, hch, htail, hsize⟩ := h1
  obtain ⟨q', hq', hch', htail', hsize'⟩ := h2
  rw [hq, hq']
  cases q; cases q'
  simp only [Option.some.injEq, queue_t.mk.injEq]
  exact ⟨(chain_first hch').trans (chain_first hch).symm, htail'.trans htail.symm,
    hsize'.trans hsize.symm⟩

theorem demo_state2_wf : WF demo_state2 [(1, [97]), (2, [98])] :=
  ⟨_, rfl, ⟨rfl, some 2, rfl, rfl, none, rfl, rfl⟩, rfl, rfl⟩

/-- C9: for every well-formed queue holding `nodes`, `q_reverse` returns (given
fuel for the loop) a well-formed queue whose sequence from head to tail is
exactly `nodes.reverse`; the count is unchanged, the new head is the former
tail, the new tail is the former head and its `next` link is `NULL`. -/
theorem q_reverse_reverses (st : State) (nodes : List Node) (fuel : Nat)
    (hwf : WF st nodes) (hf : nodes.length < fuel) :
    ∃ st', q_reverse fuel st = some st' ∧ WF st' nodes.reverse ∧
      q_size st' = q_size st ∧
      (∀ q q', st.q = some q → st'.q = some q' → q'.head = q.tail ∧ q'.tail = q.head) ∧
      (∀ q' t, st'.q = some q' → q'.tail = some t →
        ∃ v, st'.heap t = some { value := v, next := none }) := by
  obtain ⟨st', hrun, hwf', _⟩ := q_reverse_spec hwf hf
  refine ⟨st', hrun, hwf', ?_, ?_, ?_⟩
  · obtain ⟨q, hq, _, _, hsize⟩ := hwf
    obtain ⟨q', hq', _, _, hsize'⟩ := hwf'
    simp [q_size, hq, hq', hsize, hsize']
  · intro q q' hq hq'
    obtain ⟨q0, hq0, hch, htail, _⟩ := hwf
    obtain ⟨q1, hq1, hch', htail', _⟩ := hwf'
    rw [hq] at hq0; rw [hq'] at hq1
    cases hq0; cases hq1
    constructor
    · rw [chain_first hch', first_ptr_reverse, htail]
    · rw [htail', last_ptr_reverse, chain_first hch]
  · intro q' t hq' ht
    obtain ⟨q1, hq1, hch', htail', _⟩ := hwf'
    rw [hq'] at hq1; cases hq1
    exact chain_last_next hch' t (htail' ▸ ht)

theorem q_reverse_reverses_witness :
    WF demo_state2 [(1, [97]), (2, [98])] ∧ [(1, [97]), ((2 : Nat), [(98 : Nat)])].length < 3 ∧
    ∃ st', q_reverse 3 demo_state2 = some st' ∧ WF st' [(1, [97]), (2, [98])].reverse ∧
      q_size st' = q_size demo_state2 ∧
      (∀ q q', demo_state2.q = some q → st'.q = some q' →
        q'.head = q.tail ∧ q'.tail = q.head) ∧
      (∀ q' t, st'.q = some q' → q'.tail = some t →
        ∃ v, st'.heap t = some { value := v, next := none }) :=
  ⟨demo_state2_wf, by decide,
    q_reverse_reverses demo_state2 [(1, [97]), (2, [98])] 3 demo_state2_wf (by decide)⟩

/-- C10: applying `q_reverse` twice to a well-formed queue (in particular to
every non-empty one) restores the whole memory: the heap of elements with all
its links, and the head, tail and count of the queue. -/
theorem q_reverse_involution (st : State) (nodes : List Node) (fuel : Nat)
    (hwf : WF st nodes) (hf : nodes.length < fuel) :
    (q_reverse fuel st).bind (q_reverse fuel) = some st := by
  obtain ⟨st1, hrun1, hwf1, hfr1⟩ := q_reverse_spec hwf hf
  have hf1 : nodes.reverse.length < fuel := by simpa using hf
  obtain ⟨st2, hrun2, hwf2, hfr2⟩ := q_reverse_spec hwf1 hf1
  rw [List.reverse_reverse] at hwf2
  rw [hrun1, Option.some_bind, hrun2]
  have hq : st2.q = st.q := WF_q_eq hwf hwf2
  have hheap : st2.heap = st.heap := by
    funext a
    by_cases ha : a ∈ addrs nodes
    · obtain ⟨_, _, hch, _, _⟩ := hwf
      obtain ⟨_, _, hch2, _, _⟩ := hwf2
      exact chain_agree hch2 hch a ha
    · have ha' : a ∉ addrs nodes.reverse := by simpa [addrs] using ha
      rw [hfr2 a ha', hfr1 a ha]
  cases st; cases st2
  simp only at hq hheap
  rw [hq, hheap]

theorem q_reverse_involution_witness :
    WF demo_state2 [(1, [97]), (2, [98])] ∧ [(1, [97]), ((2 : Nat), [(98 : Nat)])].length < 3 ∧
    (q_reverse 3 demo_state2).bind (q_reverse 3) = some demo_state2 :=
  ⟨demo_state2_wf, by decide,
    q_reverse_involution demo_state2 [(1, [97]), (2, [98])] 3 demo_state2_wf (by decide)⟩

/-! ### Merge and sort -/

theorem merge_single (x : Node) (r : List Node) :
    List.merge [x] r node_first = insert_node x r := by
  induction r with
  | nil => simp [insert_node]
  | cons y r ih =>
    by_cases hxy : node_first x y = true
    · simp [insert_node, hxy]
    · simp [insert_node, hxy, ih]

theorem splice_some {h : Heap} {start : Option Nat} {mg x : Nat} {v vx : List Nat}
    {nx nxx : Option Nat} (hmg : h mg = some { value := v, next := nx })
    (hx : h x = some { value := vx, next := nxx }) (hne : x ≠ mg) :
    splice h start (some mg) x =
      some (h.set mg { value := v, next := some x }, start, nxx) := by
  simp [splice, hmg, heap_set_other _ _ hne, hx]

theorem splice_none {h : Heap} {start : Option Nat} {x : Nat} {vx : List Nat}
    {nxx : Option Nat} (hx : h x = some { value := vx, next := nxx }) :
    splice h start none x = some (h, some x, nxx) := by
  simp [splice, hx]

theorem mem_addrs_cons {a : Nat} {n : Node} {l : List Node} :
    a ∈ addrs (n :: l) ↔ a = n.1 ∨ a ∈ addrs l := by
  simp [addrs]

/-- The merge loop once `merge` is set: the element `mg` is the end of the
merged part, and the two chains `L` and `R` are still to be merged. -/
theorem merge_loop_tail (fuel : Nat) :
    ∀ (L R : List Node) (h : Heap) (start : Option Nat) (mg : Nat) (v : List Nat)
      (nx left right : Option Nat),
      h mg = some { value := v, next := nx } → (nx = left ∨ nx = right) →
      chain h left L → chain h right R →
      mg ∉ addrs L → mg ∉ addrs R → (∀ a ∈ addrs L, a ∉ addrs R) →
      L.length + R.length < fuel →
      ∃ h', merge_loop fuel h start (some mg) left right = some (h', start) ∧
        chain h' (some mg) ((mg, v) :: List.merge L R node_first) ∧
        (∀ a, a ≠ mg → a ∉ addrs L → a ∉ addrs R → h' a = h a) := by
  induction fuel with
  | zero => intro L R h start mg v nx left right _ _ _ _ _ _ _ hf; omega
  | succ f ih =>
    intro L R h start mg v nx left right hmg hnx hL hR hmL hmR hdisj hf
    cases L with
    | nil =>
      have hl : left = none := hL
      subst hl
      cases R with
      | nil =>
        have hr : right = none := hR
        subst hr
        have hnx' : nx = none := by rcases hnx with e | e <;> exact e
        subst hnx'
        refine ⟨h, by simp [merge_loop], ⟨rfl, none, hmg, ?_⟩, fun _ _ _ _ => rfl⟩
        simp [chain]
      | cons y R' =>
        have hyR := chain_not_mem_tail hR
        obtain ⟨hr, nxy, hy, hR'⟩ := hR
        subst hr
        have hymg : y.1 ≠ mg := fun e => hmR (by rw [mem_addrs_cons]; exact Or.inl e.symm)
        have hmR' : mg ∉ addrs R' := fun e => hmR (by rw [mem_addrs_cons]; exact Or.inr e)
        have hy1 : (h.set mg { value := v, next := some y.1 }) y.1
            = some { value := y.2, next := nxy } := by
          rw [heap_set_other _ _ hymg]; exact hy
        obtain ⟨h', hrun, hch, hfr⟩ := ih [] R' (h.set mg { value := v, next := some y.1 })
          start y.1 y.2 nxy none nxy hy1 (Or.inr rfl) rfl
          (chain_set_of_not_mem _ hmR' hR') (by simp [addrs]) hyR
          (fun a ha => by simp [addrs] at ha) (by simp at hf ⊢; omega)
        refine ⟨h', ?_, ?_, ?_⟩
        · simp only [merge_loop, take_left, splice_some hmg hy hymg]
          simpa using hrun
        · refine ⟨rfl, some y.1, ?_, ?_⟩
          · rw [hfr mg (Ne.symm hymg) (by simp [addrs]) hmR']
            exact heap_set_same _ _ _
          · simpa using hch
        · intro a ha _ haR
          rw [mem_addrs_cons, not_or] at haR
          rw [hfr a haR.1 (by simp [addrs]) haR.2, heap_set_other _ _ ha]
    | cons x L' =>
      have hxL := chain_not_mem_tail hL
      obtain ⟨hl, nxx, hx, hL'⟩ := hL
      subst hl
      have hxmg : x.1 ≠ mg := fun e => hmL (by rw [mem_addrs_cons]; exact Or.inl e.symm)
      have hmL' : mg ∉ addrs L' := fun e => hmL (by rw [mem_addrs_cons]; exact Or.inr e)
      have hx1 : (h.set mg { value := v, next := some x.1 }) x.1
          = some { value := x.2, next := nxx } := by
        rw [heap_set_other _ _ hxmg]; exact hx
      have hxR : x.1 ∉ addrs R := hdisj x.1 (by simp [addrs])
      have hdisj' : ∀ a ∈ addrs L', a ∉ addrs R :=
        fun a ha => hdisj a (by rw [mem_addrs_cons]; exact Or.inr ha)
      -- the step that takes `x` from the left chain
      have take_x : ∀ (right : Option Nat), chain h right R →
          ∃ h', merge_loop f (h.set mg { value := v, next := some x.1 }) start (some x.1)
              nxx right = some (h', start) ∧
            chain h' (some mg) ((mg, v) :: x :: List.merge L' R node_first) ∧
            (∀ a, a ≠ mg → a ∉ addrs (x :: L') → a ∉ addrs R → h' a = h a) := by
        intro right hR
        obtain ⟨h', hrun, hch, hfr⟩ := ih L' R (h.set mg { value := v, next := some x.1 })
          start x.1 x.2 nxx nxx right hx1 (Or.inl rfl)
          (chain_set_of_not_mem _ hmL' hL') (chain_set_of_not_mem _ hmR hR) hxL hxR hdisj'
          (by simp at hf ⊢; omega)
        refine ⟨h', hrun, ⟨rfl, some x.1, ?_, hch⟩, ?_⟩
        · rw [hfr mg (Ne.symm hxmg) hmL' hmR]
          exact heap_set_same _ _ _
        · intro a ha haL haR
          rw [mem_addrs_cons, not_or] at haL
          rw [hfr a haL.1 haL.2 haR, heap_set_other _ _ ha]
      cases R with
      | nil =>
        have hr : right = none := hR
        subst hr
        obtain ⟨h', hrun, hch, hfr⟩ := take_x none rfl
        refine ⟨h', ?_, by simpa using hch, hfr⟩
        simp only [merge_loop, take_left, splice_some hmg hx hxmg]
        simpa using hrun
      | cons y R' =>
        by_cases hxy : node_first x y = true
        · obtain ⟨h', hrun, hch, hfr⟩ := take_x right hR
          obtain ⟨hr, nxy, hy, hR'⟩ := id hR
          subst hr
          refine ⟨h', ?_, by simpa [hxy] using hch, hfr⟩
          have hlf : left_first x.2 y.2 = true := hxy
          simp only [merge_loop, take_left, hx, hy, hlf, splice_some hmg hx hxmg]
          simpa using hrun
        · have hyR := chain_not_mem_tail hR
          obtain ⟨hr, nxy, hy, hR'⟩ := hR
          subst hr
          have hymg : y.1 ≠ mg := fun e => hmR (by rw [mem_addrs_cons]; exact Or.inl e.symm)
          have hmR' : mg ∉ addrs R' := fun e => hmR (by rw [mem_addrs_cons]; exact Or.inr e)
          have hy1 : (h.set mg { value := v, next := some y.1 }) y.1
              = some { value := y.2, next := nxy } := by
            rw [heap_set_other _ _ hymg]; exact hy
          have hyL : y.1 ∉ addrs (x :: L') := fun e => hdisj y.1 e (by simp [addrs])
          have hLc : chain h (some x.1) (x :: L') := ⟨rfl, nxx, hx, hL'⟩
          obtain ⟨h', hrun, hch, hfr⟩ := ih (x :: L') R'
            (h.set mg { value := v, next := some y.1 })
            start y.1 y.2 nxy (some x.1) nxy hy1 (Or.inr rfl)
            (chain_set_of_not_mem _ hmL hLc) (chain_set_of_not_mem _ hmR' hR') hyL hyR
            (fun a ha hm => hdisj a ha (by rw [mem_addrs_cons]; exact Or.inr hm))
            (by simp at hf ⊢; omega)
          refine ⟨h', ?_, ?_, ?_⟩
          · have hlf : left_first x.2 y.2 = false := by
              simpa [node_first] using hxy
            simp only [merge_loop, take_left, hx, hy, hlf, splice_some hmg hy hymg]
            simpa using hrun
          · refine ⟨rfl, some y.1, ?_, ?_⟩
            · rw [hfr mg (Ne.symm hymg) hmL hmR']
              exact heap_set_same _ _ _
            · simpa [hxy] using hch
          · intro a ha haL haR
            rw [mem_addrs_cons, not_or] at haR
            rw [hfr a haR.1 haL haR.2, heap_set_other _ _ ha]

/-- The whole merge loop, entered with `merge = NULL`, on a non-empty left
chain `x :: L` and a right chain `R`. -/
theorem merge_loop_entry (fuel : Nat) (x : Node) (L R : List Node) (h : Heap)
    (start left right : Option Nat)
    (hL : chain h left (x :: L)) (hR : chain h right R)
    (hdisj : ∀ a ∈ addrs (x :: L), a ∉ addrs R) (hf : L.length + R.length + 1 < fuel) :
    ∃ h' p', merge_loop fuel h start none left right = some (h', p') ∧
      chain h' p' (List.merge (x :: L) R node_first) ∧
      (∀ a, a ∉ addrs (x :: L) → a ∉ addrs R → h' a = h a) := by
  obtain ⟨f, rfl⟩ : ∃ f, fuel = f + 1 := ⟨fuel - 1, by omega⟩
  have hxL := chain_not_mem_tail hL
  have hLc := hL
  obtain ⟨hl, nxx, hx, hL'⟩ := hL
  subst hl
  have hxR : x.1 ∉ addrs R := hdisj x.1 (by simp [addrs])
  have hdisj' : ∀ a ∈ addrs L, a ∉ addrs R :=
    fun a ha => hdisj a (by rw [mem_addrs_cons]; exact Or.inr ha)
  have take_x : ∀ (right : Option Nat), chain h right R →
      ∃ h', merge_loop f h (some x.1) (some x.1) nxx right = some (h', some x.1) ∧
        chain h' (some x.1) (x :: List.merge L R node_first) ∧
        (∀ a, a ∉ addrs (x :: L) → a ∉ addrs R → h' a = h a) := by
    intro right hR
    obtain ⟨h', hrun, hch, hfr⟩ := merge_loop_tail f L R h (some x.1) x.1 x.2 nxx nxx right
      hx (Or.inl rfl) hL' hR hxL hxR hdisj' (by omega)
    refine ⟨h', hrun, hch, ?_⟩
    intro a haL haR
    rw [mem_addrs_cons, not_or] at haL
    exact hfr a haL.1 haL.2 haR
  cases R with
  | nil =>
    have hr : right = none := hR
    subst hr
    obtain ⟨h', hrun, hch, hfr⟩ := take_x none rfl
    refine ⟨h', some x.1, ?_, by simpa using hch, hfr⟩
    simp only [merge_loop, take_left, splice_none hx]
    simpa using hrun
  | cons y R' =>
    by_cases hxy : node_first x y = true
    · obtain ⟨h', hrun, hch, hfr⟩ := take_x right hR
      obtain ⟨hr, nxy, hy, hR'⟩ := id hR
      subst hr
      refine ⟨h', some x.1, ?_, by simpa [hxy] using hch, hfr⟩
      have hlf : left_first x.2 y.2 = true := hxy
      simp only [merge_loop, take_left, hx, hy, hlf, splice_none hx]
      simpa using hrun
    · have hyR := chain_not_mem_tail hR
      obtain ⟨hr, nxy, hy, hR'⟩ := hR
      subst hr
      have hyL : y.1 ∉ addrs (x :: L) := fun e => hdisj y.1 e (by simp [addrs])
      obtain ⟨h', hrun, hch, hfr⟩ := merge_loop_tail f (x :: L) R' h (some y.1) y.1 y.2 nxy
        (some x.1) nxy hy (Or.inr rfl) hLc hR' hyL hyR
        (fun a ha hm => hdisj a ha (by rw [mem_addrs_cons]; exact Or.inr hm))
        (by simp at hf ⊢; omega)
      refine ⟨h', some y.1, ?_, by simpa [hxy] using hch, ?_⟩
      · have hlf : left_first x.2 y.2 = false := by
          simpa [node_first] using hxy
        simp only [merge_loop, take_left, hx, hy, hlf, splice_none hy]
        simpa using hrun
      · intro a haL haR
        rw [mem_addrs_cons, not_or] at haR
        exact hfr a haR.1 haL haR.2

theorem perm_insert_node (x : Node) : ∀ r : List Node, (insert_node x r).Perm (x :: r)
  | [] => List.Perm.refl _
  | y :: r => by
    by_cases hxy : node_first x y = true
    · simp [insert_node, hxy]
    · simpa [insert_node, hxy] using
        ((perm_insert_node x r).cons y).trans (List.Perm.swap x y r)

theorem perm_sort_nodes : ∀ nodes : List Node, (sort_nodes nodes).Perm nodes
  | [] => List.Perm.refl _
  | x :: xs => (perm_insert_node x (sort_nodes xs)).trans ((perm_sort_nodes xs).cons x)

theorem mem_addrs_sort_nodes (nodes : List Node) (a : Nat) :
    a ∈ addrs (sort_nodes nodes) ↔ a ∈ addrs nodes :=
  ((perm_sort_nodes nodes).map Prod.fst).mem_iff

/-- The function `q_mergeSort` turns the chain `nodes` into the chain
`sort_nodes nodes` and touches no other element. -/
theorem q_mergeSort_spec (nodes : List Node) :
    ∀ (h : Heap) (p : Option Nat) (fuel : Nat), chain h p nodes → nodes.length + 1 < fuel →
      ∃ h' p', q_mergeSort fuel h p = some (h', p') ∧ chain h' p' (sort_nodes nodes) ∧
        (∀ a, a ∉ addrs nodes → h' a = h a) := by
  induction nodes with
  | nil =>
    intro h p fuel hc hf
    obtain ⟨f, rfl⟩ : ∃ f, fuel = f + 1 := ⟨fuel - 1, by omega⟩
    have hp : p = none := hc
    subst hp
    exact ⟨h, none, by simp [q_mergeSort], rfl, fun _ _ => rfl⟩
  | cons x rest ih =>
    intro h p fuel hc hf
    obtain ⟨f, rfl⟩ : ∃ f, fuel = f + 1 := ⟨fuel - 1, by omega⟩
    have hxr := chain_not_mem_tail hc
    obtain ⟨hp, nx, hx, hrest⟩ := hc
    subst hp
    cases rest with
    | nil =>
      have hnx : nx = none := hrest
      subst hnx
      refine ⟨h, some x.1, by simp [q_mergeSort, hx], ?_, fun _ _ => rfl⟩
      exact ⟨rfl, none, hx, rfl⟩
    | cons y rest2 =>
      have hnx : nx = some y.1 := hrest.1
      subst hnx
      obtain ⟨f2, rfl⟩ : ∃ f2, f = f2 + 1 := ⟨f - 1, by simp at hf; omega⟩
      obtain ⟨h2, p2, hrun2, hch2, hfr2⟩ :=
        ih (h.set x.1 { value := x.2, next := none }) (some y.1) (f2 + 1)
          (chain_set_of_not_mem _ hxr hrest) (by simp at hf ⊢; omega)
      have hx2 : h2 x.1 = some { value := x.2, next := none } := by
        rw [hfr2 x.1 hxr]; exact heap_set_same _ _ _
      have hxs : x.1 ∉ addrs (sort_nodes (y :: rest2)) := by
        rw [mem_addrs_sort_nodes]; exact hxr
      obtain ⟨h3, p3, hrun3, hch3, hfr3⟩ :=
        merge_loop_entry (f2 + 1) x [] (sort_nodes (y :: rest2)) h2 (some x.1) (some x.1) p2
          ⟨rfl, none, hx2, rfl⟩ hch2
          (fun a ha => by
            simp only [addrs, List.map_cons, List.map_nil, List.mem_singleton] at ha
            subst ha; exact hxs)
          (by
            have := (perm_sort_nodes (y :: rest2)).length_eq
            simp at hf this ⊢; omega)
      refine ⟨h3, p3, ?_, ?_, ?_⟩
      · simp only [q_mergeSort, hx, heap_set_same]
        simp only [q_mergeSort] at hrun2
        simp only [hrun2]
        exact hrun3
      · rw [merge_single] at hch3
        exact hch3
      · intro a ha
        have ha1 : a ≠ x.1 := fun e => ha (by rw [mem_addrs_cons]; exact Or.inl e)
        have ha2 : a ∉ addrs (y :: rest2) := fun e => ha (by rw [mem_addrs_cons]; exact Or.inr e)
        rw [hfr3 a (by simpa [addrs] using ha1) (by rw [mem_addrs_sort_nodes]; exact ha2),
          hfr2 a ha2, heap_set_other _ _ ha1]

theorem last_ele_spec (rest : List Node) :
    ∀ (x : Node) (h : Heap) (fuel : Nat), chain h (some x.1) (x :: rest) → rest.length < fuel →
      last_ele fuel h x.1 = last_ptr (x :: rest) := by
  induction rest with
  | nil =>
    intro x h fuel hc hf
    obtain ⟨f, rfl⟩ : ∃ f, fuel = f + 1 := ⟨fuel - 1, by omega⟩
    obtain ⟨_, nx, hx, hrest⟩ := hc
    have hnx : nx = none := hrest
    subst hnx
    simp [last_ele, hx, last_ptr]
  | cons y rest2 ih =>
    intro x h fuel hc hf
    obtain ⟨f, rfl⟩ : ∃ f, fuel = f + 1 := ⟨fuel - 1, by omega⟩
    obtain ⟨_, nx, hx, hrest⟩ := hc
    have hnx : nx = some y.1 := hrest.1
    subst hnx
    simp only [last_ele, hx]
    rw [ih y h f hrest (by simp at hf; omega)]
    simp [last_ptr, List.getLast?_cons_cons]

/-- What `q_sort` does to a well-formed queue: the queue stays well formed,
its elements are rearranged into `sort_nodes nodes`, and no other element is
touched. -/
theorem q_sort_spec {st : State} {nodes : List Node} {fuel : Nat}
    (hwf : WF st nodes) (hf : nodes.length + 1 < fuel) :
    ∃ st', q_sort fuel st = some st' ∧ WF st' (sort_nodes nodes) ∧
      (∀ a, a ∉ addrs nodes → st'.heap a = st.heap a) := by
  obtain ⟨q, hq, hch, htail, hsize⟩ := hwf
  match nodes, hch, htail, hsize, hf with
  | [], hch, htail, hsize, _ =>
    have hhead : q.head = none := hch
    exact ⟨st, by simp [q_sort, hq, hhead], ⟨q, hq, hch, htail, hsize⟩, fun _ _ => rfl⟩
  | [x], hch, htail, hsize, _ =>
    have hhead : q.head = some x.1 := hch.1
    have hs : q.size = 1 := by simpa using hsize
    exact ⟨st, by simp [q_sort, hq, hhead, hs], ⟨q, hq, hch, htail, hsize⟩, fun _ _ => rfl⟩
  | x :: y :: rest, hch, htail, hsize, hf =>
    have hhead : q.head = some x.1 := hch.1
    have hs : ¬ q.size ≤ 1 := by
      rw [hsize]; simp only [List.length_cons]; push_cast; omega
    obtain ⟨h', p', hrun, hch', hfr⟩ := q_mergeSort_spec _ st.heap q.head fuel hch hf
    have hlen := (perm_sort_nodes (x :: y :: rest)).length_eq
    cases hsn : sort_nodes (x :: y :: rest) with
    | nil => rw [hsn] at hlen; simp at hlen
    | cons z zs =>
      rw [hsn] at hch' hlen
      have hp' : p' = some z.1 := hch'.1
      subst hp'
      have hlast := last_ele_spec zs z h' fuel hch' (by simp at hlen hf ⊢; omega)
      have hne : last_ptr (z :: zs) ≠ none := by simp [last_ptr]
      obtain ⟨t, ht⟩ := Option.ne_none_iff_exists'.1 hne
      refine ⟨{ heap := h', q := some { q with head := some z.1, tail := some t } }, ?_, ?_, hfr⟩
      · simp only [q_sort, hq]
        rw [hhead] at hrun ⊢
        simp only [hs, if_false, hrun, hlast, ht]
      · refine ⟨_, rfl, hch', ht.symm, ?_⟩
        show q.size = ((z :: zs).length : Int)
        rw [hlen]; exact hsize

/-- C1 (failing input): on the queue `["ab", "abc"]` the function `q_sort`
leaves `["abc", "ab"]` from head to tail, although an unbounded comparison puts
`"abc"` strictly after `"ab"`: the result is not in ascending order. -/
theorem q_sort_ab_abc_descending :
    (ab_abc_state.bind (q_sort 4)).bind (q_strings 4) = some [bytes "abc", bytes "ab"] ∧
    0 < strncmp (bytes "abc") (bytes "ab") 4 := by
  decide

/-- The example of the specification: `["banana", "apple", "cherry"]` is sorted
into `["apple", "banana", "cherry"]`. -/
theorem q_sort_fruit :
    (fruit_state.bind (q_sort 5)).bind (q_strings 5) =
      some [bytes "apple", bytes "banana", bytes "cherry"] := by
  decide

/-- C2: for every well-formed queue holding `nodes`, `q_sort` returns (given
fuel for its loops) a well-formed queue whose elements `nodes'` are a
permutation of `nodes` (same addresses with the same strings); the count is
unchanged, and `tail` is the last element of the new chain, whose `next` link
is `NULL`. -/
theorem q_sort_permutes (st : State) (nodes : List Node) (fuel : Nat)
    (hwf : WF st nodes) (hf : nodes.length + 1 < fuel) :
    ∃ st' nodes', q_sort fuel st = some st' ∧ WF st' nodes' ∧ nodes'.Perm nodes ∧
      q_size st' = q_size st ∧
      (∀ q', st'.q = some q' → q'.tail = last_ptr nodes') ∧
      (∀ q' t, st'.q = some q' → q'.tail = some t →
        ∃ v, st'.heap t = some { value := v, next := none }) := by
  obtain ⟨st', hrun, hwf', _⟩ := q_sort_spec hwf hf
  refine ⟨st', sort_nodes nodes, hrun, hwf', perm_sort_nodes nodes, ?_, ?_, ?_⟩
  · obtain ⟨q, hq, _, _, hsize⟩ := hwf
    obtain ⟨q', hq', _, _, hsize'⟩ := hwf'
    simp [q_size, hq, hq', hsize, hsize', (perm_sort_nodes nodes).length_eq]
  · intro q' hq'
    obtain ⟨q1, hq1, _, htail', _⟩ := hwf'
    rw [hq'] at hq1; cases hq1
    exact htail'
  · intro q' t hq' ht
    obtain ⟨q1, hq1, hch', htail', _⟩ := hwf'
    rw [hq'] at hq1; cases hq1
    exact chain_last_next hch' t (htail' ▸ ht)

theorem demo_state_ba_wf : WF demo_state_ba [(1, [98]), (2, [97])] :=
  ⟨_, rfl, ⟨rfl, some 2, rfl, rfl, none, rfl, rfl⟩, rfl, rfl⟩

theorem q_sort_permutes_witness :
    WF demo_state_ba [(1, [98]), (2, [97])] ∧
    [(1, [98]), ((2 : Nat), [(97 : Nat)])].length + 1 < 4 ∧
    ∃ st' nodes', q_sort 4 demo_state_ba = some st' ∧ WF st' nodes' ∧
      nodes'.Perm [(1, [98]), (2, [97])] ∧
      q_size st' = q_size demo_state_ba ∧
      (∀ q', st'.q = some q' → q'.tail = last_ptr nodes') ∧
      (∀ q' t, st'.q = some q' → q'.tail = some t →
        ∃ v, st'.heap t = some { value := v, next := none }) :=
  ⟨demo_state_ba_wf, by decide,
    q_sort_permutes demo_state_ba [(1, [98]), (2, [97])] 4 demo_state_ba_wf (by decide)⟩

/-! ### Removal and the copy-out -/

theorem strlen_le_length : ∀ s : List Nat, strlen s ≤ s.length
  | [] => by simp [strlen]
  | c :: cs => by
    by_cases hc : c = 0
    · simp [strlen, hc]
    · simp [strlen, hc, strlen_le_length cs]

theorem size_pred_eq {n : Nat} (h1 : 1 ≤ n) (h2 : n < SIZE_MOD) : size_pred n = n - 1 := by
  unfold size_pred SIZE_MOD at *
  omega

/-- Copying `k` bytes of a string that has at least `k` bytes and storing a
terminator at offset `k` leaves the first `k` bytes of the string followed by
NUL in the buffer. -/
theorem readBuf_store_strncpy (sp : Buf) (v : List Nat) (k : Nat) (hk : k ≤ strlen v) :
    readBuf (store (strncpy_bytes sp v k) k 0) (k + 1) = v.take k ++ [0] := by
  have hlen := strlen_le_length v
  apply List.ext_getElem
  · simp [readBuf]; omega
  · intro i h1 h2
    simp only [readBuf, List.getElem_map, List.getElem_range]
    simp only [readBuf, List.length_map, List.length_range] at h1
    by_cases hik : i = k
    · subst hik
      simp [store, List.getElem_append_right]
    · have hi : i < k := by omega
      have hiv : i < v.length := by omega
      rw [List.getElem_append_left (by simp; omega)]
      simp [store, strncpy_bytes, hik, hi, show i < strlen v by omega,
        List.getElem?_eq_getElem hiv]

/-- A copy bounded by the length of the string returns: nothing is padded. -/
theorem strncpy_of_le (sp : Buf) (v : List Nat) {k : Nat} (hk : k ≤ strlen v) :
    strncpy sp v k = some (strncpy_bytes sp v k) := by
  simp only [strncpy]
  rw [if_neg]
  intro h
  omega

/-- The copy-out of a string longer than a capacity `bufsize ≥ 1`. -/
theorem copy_out_of_lt (sp : Buf) (v : List Nat) (bufsize : Nat) (h1 : 1 ≤ bufsize)
    (h2 : bufsize < strlen v) (h3 : bufsize < SIZE_MOD) :
    copy_out sp v bufsize =
      some (store (strncpy_bytes sp v (bufsize - 1)) (bufsize - 1) 0) := by
  simp only [copy_out, gt_iff_lt, h2, if_true, size_pred_eq h1 h3]
  rw [strncpy_of_le sp v (by omega)]
  rfl

/-- The copy-out of a string that is not longer than `bufsize`. -/
theorem copy_out_of_le (sp : Buf) (v : List Nat) (bufsize : Nat) (h : strlen v ≤ bufsize) :
    copy_out sp v bufsize =
      some (store (strncpy_bytes sp v (strlen v)) (strlen v) 0) := by
  simp only [copy_out, gt_iff_lt, show ¬ bufsize < strlen v by omega, if_false]
  rw [strncpy_of_le sp v (le_refl _)]
  rfl

/-- The copy-out returns whenever the capacity is not zero. -/
theorem copy_out_returns (sp : Buf) (v : List Nat) (bufsize : Nat) (h : 0 < bufsize) :
    ∃ b, copy_out sp v bufsize = some b := by
  by_cases hlt : bufsize < strlen v
  · have hnf : ¬ (SIZE_MOD - 1 ≤ size_pred bufsize ∧ strlen v < size_pred bufsize) := by
      unfold size_pred SIZE_MOD
      omega
    simp only [copy_out, gt_iff_lt, hlt, if_true, strncpy, if_neg hnf]
    exact ⟨_, rfl⟩
  · exact ⟨_, copy_out_of_le sp v bufsize (by omega)⟩

/-- The copy-out does not return exactly when the capacity is zero and the
string is not empty (and has a length that a `size_t` can hold). -/
theorem copy_out_eq_none_iff (sp : Buf) (v : List Nat) (bufsize : Nat) :
    copy_out sp v bufsize = none ↔
      bufsize = 0 ∧ 0 < strlen v ∧ strlen v < SIZE_MOD - 1 := by
  constructor
  · intro h
    by_cases h0 : bufsize = 0
    · subst h0
      by_cases hv : 0 < strlen v
      · refine ⟨rfl, hv, ?_⟩
        simp only [copy_out, gt_iff_lt, hv, if_true, strncpy, Option.map_eq_none',
          ite_eq_left_iff, not_and, not_lt] at h
        by_contra hge
        have := h (fun _ => by unfold size_pred SIZE_MOD at *; omega)
        exact absurd this (by simp)
      · rw [copy_out_of_le sp v 0 (by omega)] at h
        exact absurd h (by simp)
    · obtain ⟨b, hb⟩ := copy_out_returns sp v bufsize (by omega)
      rw [hb] at h
      exact absurd h (by simp)
  · rintro ⟨rfl, hv, hlt⟩
    have hf : SIZE_MOD - 1 ≤ size_pred 0 ∧ strlen v < size_pred 0 := by
      unfold size_pred SIZE_MOD at *
      omega
    simp only [copy_out, gt_iff_lt, hv, if_true, strncpy, if_pos hf, Option.map_none']

theorem chain_free_of_not_mem {h : Heap} {nodes : List Node} {p : Option Nat} {a : Nat}
    (hna : a ∉ addrs nodes) (hc : chain h p nodes) : chain (h.free a) p nodes :=
  chain_frame (fun b hb => by
    have : b ≠ a := fun hba => hna (hba ▸ hb)
    simp [Heap.free, this]) hc

theorem last_ptr_cons_cons (n m : Node) (rest : List Node) :
    last_ptr (n :: m :: rest) = last_ptr (m :: rest) := by
  simp [last_ptr, List.getLast?_cons_cons]

/-- What `q_remove_head` does to a well-formed non-empty queue: the head
element is unlinked and freed, and the call returns `true` unless the
copy-out does not return. -/
theorem q_remove_head_spec {st : State} {n : Node} {rest : List Node}
    (hwf : WF st (n :: rest)) (bufsize : Nat) :
    ∃ st', WF st' rest ∧ st'.heap = st.heap.free n.1 ∧
      q_remove_head st none bufsize = some (st', none, true) ∧
      ∀ b, q_remove_head st (some b) bufsize =
        (copy_out b n.2 bufsize).map fun b1 => (st', some b1, true) := by
  obtain ⟨q, hq, hch, htail, hsize⟩ := hwf
  have hnr := chain_not_mem_tail hch
  obtain ⟨hhead, nx, hn, hrest⟩ := hch
  simp only [q_remove_head, hq, hhead, hn]
  refine ⟨_, ?_, rfl, rfl, fun b => rfl⟩
  refine ⟨_, rfl, ?_, ?_, ?_⟩
  · split <;> exact chain_free_of_not_mem hnr hrest
  · cases rest with
    | nil => simp [hsize, last_ptr]
    | cons m rest2 =>
      have : ¬ (q.size - 1 = 0) := by
        rw [hsize]; simp only [List.length_cons]; push_cast; omega
      simp only [this, if_false]
      rw [htail, last_ptr_cons_cons]
  · split <;> simp [hsize]

/-- On a well-formed non-empty queue `q_remove_head` returns `true` whenever
the buffer is `NULL` or the capacity is not zero. -/
theorem q_remove_head_returns {st : State} {n : Node} {rest : List Node}
    (hwf : WF st (n :: rest)) (sp : Option Buf) (bufsize : Nat)
    (hsafe : sp = none ∨ 0 < bufsize) :
    ∃ st' sp', q_remove_head st sp bufsize = some (st', sp', true) ∧ WF st' rest := by
  obtain ⟨st', hwf', _, hnone, hsome⟩ := q_remove_head_spec hwf bufsize
  cases sp with
  | none => exact ⟨st', none, hnone, hwf'⟩
  | some b =>
    have hb : 0 < bufsize := by
      rcases hsafe with h | h
      · exact absurd h (by simp)
      · exact h
    obtain ⟨b1, hb1⟩ := copy_out_returns b n.2 bufsize hb
    exact ⟨st', some b1, by rw [hsome, hb1]; rfl, hwf'⟩

/-- Whenever `q_remove_head` returns on a well-formed non-empty queue, it
returns `true` and leaves the rest of the queue, well formed. -/
theorem q_remove_head_result {st : State} {n : Node} {rest : List Node}
    (hwf : WF st (n :: rest)) (sp : Option Buf) (bufsize : Nat)
    (r : State × Option Buf × Bool) (hr : q_remove_head st sp bufsize = some r) :
    r.2.2 = true ∧ WF r.1 rest := by
  obtain ⟨st', hwf', _, hnone, hsome⟩ := q_remove_head_spec hwf bufsize
  cases sp with
  | none =>
    rw [hnone] at hr
    cases hr
    exact ⟨rfl, hwf'⟩
  | some b =>
    rw [hsome] at hr
    cases hc : copy_out b n.2 bufsize with
    | none => rw [hc] at hr; exact absurd hr (by simp)
    | some b1 =>
      rw [hc] at hr
      cases hr
      exact ⟨rfl, hwf'⟩

theorem hello_state_wf : WF hello_state [(1, bytes "hello")] :=
  ⟨_, rfl, ⟨rfl, none, rfl, rfl⟩, rfl, rfl⟩

/-- C3 (failing input): the head string `"abcd"` has length 4 and the call
passes `bufsize = 4`.  The call succeeds, but the buffer then holds all four
characters `"abcd"` at offsets 0 to 3 and the terminator at offset 4, not
`"abc"` with the terminator at offset 3. -/
theorem q_remove_head_boundary_not_truncated :
    (q_remove_head abcd_state (some ff_buf) 4).map
        (fun r => (r.2.1.map (fun b => readBuf b 5), r.2.2)) =
      some (some (bytes "abcd" ++ [0]), true) ∧
    strlen (bytes "abcd") = 4 := by
  decide

/-- C4 (failing inputs): with the head string `"abcd"` and `bufsize = 4` the
byte at offset 4, outside the capacity, is overwritten (it was `0xFF`, it
becomes NUL); with the empty head string and `bufsize = 0` the call returns
`true` and the byte at offset 0 is overwritten; with the head string `"hello"`
and `bufsize = 0` the call asks `strncpy` for `SIZE_MAX` bytes, which
overwrites the bytes from offset 0 on (the first 8 are shown) and never
returns. -/
theorem q_remove_head_writes_past_capacity :
    ff_buf 4 = 255 ∧
    (q_remove_head abcd_state (some ff_buf) 4).map (fun r => r.2.1.map (fun b => b 4)) =
      some (some 0) ∧
    (q_remove_head empty_string_state (some ff_buf) 0).map
        (fun r => (r.2.1.map (fun b => b 0), r.2.2)) = some (some 0, true) ∧
    (q_remove_head hello_state (some ff_buf) 0).isNone = true ∧
    size_pred 0 = SIZE_MOD - 1 ∧
    readBuf (strncpy_bytes ff_buf (bytes "hello") (size_pred 0)) 8 =
      bytes "hello" ++ [0, 0, 0] := by
  decide

/-- C5: for every well-formed non-empty queue whose head string is strictly
longer than `bufsize` (with `bufsize ≥ 1` a `size_t` value) and every non-NULL
buffer, `q_remove_head` returns `true` and the first `bufsize` bytes of the
buffer are the first `bufsize - 1` bytes of the removed string followed by a
terminator. -/
theorem q_remove_head_truncates (st : State) (n : Node) (rest : List Node) (sp : Buf)
    (bufsize : Nat) (hwf : WF st (n :: rest)) (h1 : 1 ≤ bufsize)
    (h2 : bufsize < strlen n.2) (h3 : bufsize < SIZE_MOD) :
    ∃ st' buf, q_remove_head st (some sp) bufsize = some (st', some buf, true) ∧
      readBuf buf bufsize = n.2.take (bufsize - 1) ++ [0] := by
  obtain ⟨st', _, _, _, hsome⟩ := q_remove_head_spec hwf bufsize
  refine ⟨st', store (strncpy_bytes sp n.2 (bufsize - 1)) (bufsize - 1) 0, ?_, ?_⟩
  · rw [hsome, copy_out_of_lt sp n.2 bufsize h1 h2 h3]
    rfl
  · have := readBuf_store_strncpy sp n.2 (bufsize - 1) (by omega)
    rw [show bufsize - 1 + 1 = bufsize by omega] at this
    exact this

theorem q_remove_head_truncates_witness :
    WF hello_state [(1, bytes "hello")] ∧ 1 ≤ 4 ∧ 4 < strlen (bytes "hello") ∧ 4 < SIZE_MOD ∧
    ∃ st' buf, q_remove_head hello_state (some ff_buf) 4 = some (st', some buf, true) ∧
      readBuf buf 4 = (bytes "hello").take (4 - 1) ++ [0] :=
  ⟨hello_state_wf, by decide, by decide, by decide,
    q_remove_head_truncates hello_state (1, bytes "hello") [] ff_buf 4 hello_state_wf
      (by decide) (by decide) (by decide)⟩

/-- The example of the specification: `"hello"` removed into a buffer of size 4
yields `"hel"` and a terminator. -/
theorem q_remove_head_hello :
    (q_remove_head hello_state (some ff_buf) 4).map
        (fun r => (r.2.1.map (fun b => readBuf b 4), r.2.2)) =
      some (some (bytes "hel" ++ [0]), true) := by
  decide

/-! ### Strings in buffers -/

theorem c_string_nil : c_string [] = [] := rfl

theorem c_string_cons_zero (cs : List Nat) : c_string (0 :: cs) = [] := by
  simp [c_string, strlen]

theorem c_string_cons_ne {c : Nat} (hc : c ≠ 0) (cs : List Nat) :
    c_string (c :: cs) = c :: c_string cs := by
  simp [c_string, strlen, hc]

/-- A byte list without a NUL byte is its own C string. -/
theorem c_string_of_no_nul : ∀ s : List Nat, 0 ∉ s → c_string s = s
  | [], _ => rfl
  | c :: cs, h => by
    have hc : c ≠ 0 := fun e => h (by simp [e])
    rw [c_string_cons_ne hc, c_string_of_no_nul cs (fun hm => h (List.mem_cons_of_mem _ hm))]

theorem c_string_append_zero (rest : List Nat) :
    ∀ v : List Nat, c_string (c_string v ++ 0 :: rest) = c_string v
  | [] => by rw [c_string_nil, List.nil_append, c_string_cons_zero]
  | c :: cs => by
    by_cases hc : c = 0
    · subst hc
      rw [c_string_cons_zero, List.nil_append, c_string_cons_zero]
    · rw [c_string_cons_ne hc, List.cons_append, c_string_cons_ne hc,
        c_string_append_zero rest cs]

theorem c_string_idem (v : List Nat) : c_string (c_string v) = c_string v := by
  induction v with
  | nil => rfl
  | cons c cs ih =>
    by_cases hc : c = 0
    · subst hc; rw [c_string_cons_zero]; rfl
    · rw [c_string_cons_ne hc, c_string_cons_ne hc, ih]

theorem strlen_c_string (v : List Nat) : strlen (c_string v) = strlen v := by
  induction v with
  | nil => rfl
  | cons c cs ih =>
    by_cases hc : c = 0
    · subst hc; rw [c_string_cons_zero]; simp [strlen]
    · rw [c_string_cons_ne hc]; simp [strlen, hc, ih]

theorem readBuf_add (b : Buf) (m j : Nat) :
    readBuf b (m + j) = readBuf b m ++ (List.range j).map (fun i => b (m + i)) := by
  simp [readBuf, List.range_add, List.map_append, List.map_map, Function.comp_def]

/-- A string shorter than the capacity is found unchanged in the buffer after
the copy-out, which returns. -/
theorem buf_string_copy_out (sp : Buf) (v : List Nat) (bufsize : Nat)
    (h : strlen v < bufsize) :
    ∃ b, copy_out sp v bufsize = some b ∧
      readBuf b (strlen v + 1) = c_string v ++ [0] ∧ buf_string b bufsize = c_string v := by
  refine ⟨_, copy_out_of_le sp v bufsize (by omega), ?_, ?_⟩
  · exact readBuf_store_strncpy sp v (strlen v) (le_refl _)
  · obtain ⟨j, hj⟩ : ∃ j, bufsize = (strlen v + 1) + j :=
      ⟨bufsize - (strlen v + 1), by omega⟩
    unfold buf_string
    rw [hj, readBuf_add, readBuf_store_strncpy sp v (strlen v) (le_refl _)]
    have : v.take (strlen v) = c_string v := rfl
    rw [this, List.append_assoc, List.singleton_append, c_string_append_zero]

/-- The removal of a head string shorter than the capacity: the call returns
`true` and the string is found in the buffer. -/
theorem q_remove_head_short {st : State} {n : Node} {rest : List Node}
    (hwf : WF st (n :: rest)) (sp : Buf) (bufsize : Nat) (h : strlen n.2 < bufsize) :
    ∃ st' b, q_remove_head st (some sp) bufsize = some (st', some b, true) ∧
      WF st' rest ∧ st'.heap = st.heap.free n.1 ∧
      readBuf b (strlen n.2 + 1) = c_string n.2 ++ [0] ∧
      buf_string b bufsize = c_string n.2 := by
  obtain ⟨st', hwf', hheap, _, hsome⟩ := q_remove_head_spec hwf bufsize
  obtain ⟨b, hb, hread, hstr⟩ := buf_string_copy_out sp n.2 bufsize h
  exact ⟨st', b, by rw [hsome, hb]; rfl, hwf', hheap, hread, hstr⟩

/-! ### Insertion -/

theorem chain_alloc {h : Heap} {nodes : List Node} :
    ∀ {p : Option Nat}, chain h p nodes → ∀ a ∈ addrs nodes, h a ≠ none := by
  induction nodes with
  | nil => intro _ _ a ha; simp [addrs] at ha
  | cons n rest ih =>
    intro p hc a ha
    obtain ⟨_, nx, hn, hrest⟩ := hc
    rw [mem_addrs_cons] at ha
    rcases ha with rfl | ha
    · rw [hn]; simp
    · exact ih hrest a ha

theorem last_ptr_mem {nodes : List Node} {t : Nat} (h : last_ptr nodes = some t) :
    t ∈ addrs nodes := by
  simp only [last_ptr, Option.map_eq_some'] at h
  obtain ⟨n, hn, rfl⟩ := h
  exact List.mem_map_of_mem _ (List.mem_of_getLast?_eq_some hn)

theorem first_ptr_cons (n : Node) (rest : List Node) : first_ptr (n :: rest) = some n.1 := rfl

/-- What a successful `q_insert_head` does to a well-formed queue. -/
theorem q_insert_head_spec {st : State} {nodes : List Node} (hwf : WF st nodes)
    (s : List Nat) {a : Nat} (ha : a ∉ addrs nodes) :
    (q_insert_head st s (some a) true).2 = true ∧
      WF (q_insert_head st s (some a) true).1 ((a, c_string s) :: nodes) := by
  obtain ⟨q, hq, hch, htail, hsize⟩ := hwf
  simp only [q_insert_head, hq]
  refine ⟨by simp, ?_⟩
  refine ⟨_, rfl, ?_, ?_, ?_⟩
  · have hc : chain (st.heap.set a { value := c_string s, next := q.head }) (some a)
        ((a, c_string s) :: nodes) :=
      ⟨rfl, q.head, heap_set_same _ _ _, chain_set_of_not_mem _ ha hch⟩
    simp only [Bool.true_eq_false, if_false]
    split <;> exact hc
  · cases nodes with
    | nil => simp [hsize, last_ptr]
    | cons m rest =>
      have : ¬ (q.size = 0) := by
        rw [hsize]; simp only [List.length_cons]; push_cast; omega
      simp only [Bool.true_eq_false, if_false, this]
      rw [htail, last_ptr_cons_cons]
  · simp only [Bool.true_eq_false, if_false]
    split <;> simp [hsize]

theorem chain_snoc {h : Heap} {a : Nat} (v : List Nat) (rest : List Node) :
    ∀ (n : Node) (p : Option Nat) (t : Nat) (te : list_ele_t),
      chain h p (n :: rest) → a ∉ addrs (n :: rest) →
      last_ptr (n :: rest) = some t → h t = some te →
      chain ((h.set a { value := v, next := none }).set t { te with next := some a }) p
        ((n :: rest) ++ [(a, v)]) := by
  induction rest with
  | nil =>
    intro n p t te hc ha ht hte
    obtain ⟨hp, nx, hn, hrest⟩ := hc
    have hnx : nx = none := hrest
    subst hnx
    have htn : t = n.1 := by simpa [last_ptr] using ht.symm
    subst htn
    have hne : a ≠ n.1 := fun e => ha (by simp [addrs, e])
    rw [hn] at hte
    cases hte
    refine ⟨hp, some a, heap_set_same _ _ _, rfl, none, ?_, rfl⟩
    rw [heap_set_other _ _ hne]
    exact heap_set_same _ _ _
  | cons m rest2 ih =>
    intro n p t te hc ha ht hte
    have hnr := chain_not_mem_tail hc
    obtain ⟨hp, nx, hn, hrest⟩ := hc
    rw [last_ptr_cons_cons] at ht
    have htm := last_ptr_mem ht
    have hnt : n.1 ≠ t := fun e => hnr (e ▸ htm)
    have hna : n.1 ≠ a := fun e => ha (by simp [addrs, e])
    have ha' : a ∉ addrs (m :: rest2) := fun e => ha (by rw [mem_addrs_cons]; exact Or.inr e)
    refine ⟨hp, nx, ?_, ih m nx t te hrest ha' ht hte⟩
    rw [heap_set_other _ _ hnt, heap_set_other _ _ hna]
    exact hn

/-- What a successful `q_insert_tail` does to a well-formed queue. -/
theorem q_insert_tail_spec {st : State} {nodes : List Node} (hwf : WF st nodes)
    (s : List Nat) {a : Nat} (ha : a ∉ addrs nodes) :
    ∃ st', q_insert_tail st s (some a) true = some (st', true) ∧
      WF st' (nodes ++ [(a, c_string s)]) := by
  obtain ⟨q, hq, hch, htail, hsize⟩ := hwf
  cases nodes with
  | nil =>
    have hs : q.size = 0 := by simpa using hsize
    refine ⟨_, by simp only [q_insert_tail, hq, hs]; simp; rfl, ?_⟩
    exact ⟨_, rfl, ⟨rfl, none, heap_set_same _ _ _, rfl⟩, rfl, by simp⟩
  | cons n rest =>
    have hs : ¬ (q.size = 0) := by
      rw [hsize]; simp only [List.length_cons]; push_cast; omega
    have hne : last_ptr (n :: rest) ≠ none := by simp [last_ptr]
    obtain ⟨t, ht⟩ := Option.ne_none_iff_exists'.1 hne
    have htm := last_ptr_mem ht
    have hta : t ≠ a := fun e => ha (e ▸ htm)
    obtain ⟨te, hte⟩ := Option.ne_none_iff_exists'.1 (chain_alloc hch t htm)
    refine ⟨{ heap := (st.heap.set a { value := c_string s, next := none }).set t
                { te with next := some a },
              q := some { q with tail := some a, size := q.size + 1 } }, ?_, ?_⟩
    · simp only [q_insert_tail, hq, hs, htail, ht, heap_set_other _ _ hta, hte]
      simp
    · refine ⟨_, rfl, chain_snoc _ rest n q.head t te hch ha ht hte, ?_, ?_⟩
      · show some a = last_ptr ((n :: rest) ++ [(a, c_string s)])
        rw [last_ptr, List.getLast?_concat]; rfl
      · simp [hsize]

/-! ### Sequences of insertions and removals -/

theorem addrs_stored (xs : List Node) : addrs (stored xs) = addrs xs := by
  simp [addrs, stored, List.map_map, Function.comp_def]

theorem addrs_append (l1 l2 : List Node) : addrs (l1 ++ l2) = addrs l1 ++ addrs l2 := by
  simp [addrs]

theorem insert_tail_all_spec (xs : List Node) :
    ∀ (st : State) (nodes : List Node), WF st nodes → (addrs nodes ++ addrs xs).Nodup →
      ∃ st', insert_tail_all st xs = some (st', List.replicate xs.length true) ∧
        WF st' (nodes ++ stored xs) := by
  induction xs with
  | nil =>
    intro st nodes hwf _
    exact ⟨st, rfl, by simpa [stored] using hwf⟩
  | cons x xs ih =>
    intro st nodes hwf hnd
    have hx : x.1 ∉ addrs nodes := by
      intro hm
      have := List.disjoint_of_nodup_append hnd hm
      exact this (by simp [addrs])
    obtain ⟨st1, hrun1, hwf1⟩ := q_insert_tail_spec hwf x.2 hx
    have hnd1 : (addrs (nodes ++ [(x.1, c_string x.2)]) ++ addrs xs).Nodup := by
      simpa [addrs] using hnd
    obtain ⟨st', hrun, hwf'⟩ := ih st1 _ hwf1 hnd1
    refine ⟨st', ?_, ?_⟩
    · simp only [insert_tail_all, hrun1, hrun]
      rfl
    · simpa [stored] using hwf'

theorem insert_head_all_spec (xs : List Node) :
    ∀ (st : State) (nodes : List Node), WF st nodes → (addrs nodes ++ addrs xs).Nodup →
      (insert_head_all st xs).2 = List.replicate xs.length true ∧
        WF (insert_head_all st xs).1 ((stored xs).reverse ++ nodes) := by
  induction xs with
  | nil =>
    intro st nodes hwf _
    exact ⟨rfl, by simpa [stored, insert_head_all] using hwf⟩
  | cons x xs ih =>
    intro st nodes hwf hnd
    have hx : x.1 ∉ addrs nodes := by
      intro hm
      have := List.disjoint_of_nodup_append hnd hm
      exact this (by simp [addrs])
    obtain ⟨hok, hwf1⟩ := q_insert_head_spec hwf x.2 hx
    have hnd1 : (addrs ((x.1, c_string x.2) :: nodes) ++ addrs xs).Nodup := by
      have := hnd
      simp only [addrs, List.map_cons, List.map_append, List.cons_append] at this ⊢
      exact (List.perm_middle.nodup_iff).1 this
    obtain ⟨hflags, hwf'⟩ := ih _ _ hwf1 hnd1
    refine ⟨?_, ?_⟩
    · simp only [insert_head_all, hok, hflags]
      rfl
    · simpa [stored, insert_head_all] using hwf'

theorem remove_head_n_spec (bufsize : Nat) (nodes : List Node) :
    ∀ (st : State) (sp : Buf), WF st nodes → (∀ x ∈ nodes, strlen x.2 < bufsize) →
      ∃ st' outs, remove_head_n bufsize nodes.length st sp = some (st', outs) ∧
        outs.map Prod.fst = List.replicate nodes.length true ∧
        outs.map (fun o => buf_string o.2 bufsize) = nodes.map (fun x => c_string x.2) ∧
        WF st' [] := by
  induction nodes with
  | nil =>
    intro st sp hwf _
    exact ⟨st, [], rfl, rfl, rfl, hwf⟩
  | cons n rest ih =>
    intro st sp hwf hlen
    obtain ⟨st1, b, hrun1, hwf1, _, _, hbs⟩ :=
      q_remove_head_short hwf sp bufsize (hlen n (List.mem_cons_self _ _))
    obtain ⟨st', outs, hrun, hflags, hstr, hwf'⟩ :=
      ih st1 b hwf1 (fun x hx => hlen x (List.mem_cons_of_mem _ hx))
    refine ⟨st', (true, b) :: outs, ?_, ?_, ?_, hwf'⟩
    · simp only [List.length_cons, remove_head_n, hrun1, Option.map_some', hrun]
    · simp [hflags, List.replicate_succ]
    · simp only [List.map_cons, hstr, hbs]

theorem WF_nil_size {st : State} (hwf : WF st []) : q_size st = 0 := by
  obtain ⟨q, hq, _, _, hsize⟩ := hwf
  simp [q_size, hq, hsize]

theorem fresh_state_wf : WF fresh_state [] :=
  ⟨_, rfl, rfl, rfl, rfl⟩

/-- C6: starting from an empty queue, inserting the strings of `xs` in order
with `q_insert_tail` (every allocation succeeds, the elements get pairwise
distinct addresses) and then calling `q_remove_head` as many times, each
string being shorter than the buffer: every call returns `true`, the strings
found in the buffer after the successive removals are the inserted strings in
insertion order, and the queue is empty at the end. -/
theorem fifo_order (st : State) (xs : List Node) (sp : Buf) (bufsize : Nat)
    (hwf : WF st []) (hnd : (addrs xs).Nodup) (hlen : ∀ x ∈ xs, strlen x.2 < bufsize) :
    ∃ st1 st2 outs, insert_tail_all st xs = some (st1, List.replicate xs.length true) ∧
      remove_head_n bufsize xs.length st1 sp = some (st2, outs) ∧
      outs.map Prod.fst = List.replicate xs.length true ∧
      outs.map (fun o => buf_string o.2 bufsize) = xs.map (fun x => c_string x.2) ∧
      WF st2 [] ∧ q_size st2 = 0 := by
  obtain ⟨st1, hrun1, hwf1⟩ := insert_tail_all_spec xs st [] hwf (by simpa [addrs] using hnd)
  rw [List.nil_append] at hwf1
  obtain ⟨st2, outs, hrun2, hflags, hstr, hwf2⟩ :=
    remove_head_n_spec bufsize (stored xs) st1 sp hwf1 (by
      intro x hx
      obtain ⟨y, hy, rfl⟩ := List.mem_map.1 hx
      simpa [strlen_c_string] using hlen y hy)
  have hl : (stored xs).length = xs.length := by simp [stored]
  rw [hl] at hrun2 hflags
  refine ⟨st1, st2, outs, hrun1, hrun2, hflags, ?_, hwf2, WF_nil_size hwf2⟩
  rw [hstr]
  simp [stored, List.map_map, Function.comp_def, c_string_idem]

theorem fifo_order_witness :
    WF fresh_state [] ∧ (addrs [(1, bytes "a"), (2, bytes "bc")]).Nodup ∧
    (∀ x ∈ [(1, bytes "a"), ((2 : Nat), bytes "bc")], strlen x.2 < 4) ∧
    ∃ st1 st2 outs,
      insert_tail_all fresh_state [(1, bytes "a"), (2, bytes "bc")] =
        some (st1, List.replicate [(1, bytes "a"), ((2 : Nat), bytes "bc")].length true) ∧
      remove_head_n 4 [(1, bytes "a"), ((2 : Nat), bytes "bc")].length st1 ff_buf =
        some (st2, outs) ∧
      outs.map Prod.fst =
        List.replicate [(1, bytes "a"), ((2 : Nat), bytes "bc")].length true ∧
      outs.map (fun o => buf_string o.2 4) =
        [(1, bytes "a"), ((2 : Nat), bytes "bc")].map (fun x => c_string x.2) ∧
      WF st2 [] ∧ q_size st2 = 0 :=
  ⟨fresh_state_wf, by decide, by decide,
    fifo_order fresh_state [(1, bytes "a"), (2, bytes "bc")] ff_buf 4 fresh_state_wf
      (by decide) (by decide)⟩

/-- C7: starting from an empty queue, inserting the strings of `xs` in order
with `q_insert_head` (every allocation succeeds, the elements get pairwise
distinct addresses) and then calling `q_remove_head` as many times, each
string being shorter than the buffer: every call returns `true`, the strings
found in the buffer after the successive removals are the inserted strings in
reverse insertion order, and the queue is empty at the end. -/
theorem lifo_order (st : State) (xs : List Node) (sp : Buf) (bufsize : Nat)
    (hwf : WF st []) (hnd : (addrs xs).Nodup) (hlen : ∀ x ∈ xs, strlen x.2 < bufsize) :
    (insert_head_all st xs).2 = List.replicate xs.length true ∧
    ∃ st2 outs, remove_head_n bufsize xs.length (insert_head_all st xs).1 sp = some (st2, outs) ∧
      outs.map Prod.fst = List.replicate xs.length true ∧
      outs.map (fun o => buf_string o.2 bufsize) = (xs.map (fun x => c_string x.2)).reverse ∧
      WF st2 [] ∧ q_size st2 = 0 := by
  obtain ⟨hflags1, hwf1⟩ := insert_head_all_spec xs st [] hwf (by simpa [addrs] using hnd)
  rw [List.append_nil] at hwf1
  obtain ⟨st2, outs, hrun2, hflags, hstr, hwf2⟩ :=
    remove_head_n_spec bufsize (stored xs).reverse _ sp hwf1 (by
      intro x hx
      obtain ⟨y, hy, rfl⟩ := List.mem_map.1 (List.mem_reverse.1 hx)
      simpa [strlen_c_string] using hlen y hy)
  have hl : (stored xs).reverse.length = xs.length := by simp [stored]
  rw [hl] at hrun2 hflags
  refine ⟨hflags1, st2, outs, hrun2, hflags, ?_, hwf2, WF_nil_size hwf2⟩
  rw [hstr]
  simp [stored, List.map_map, Function.comp_def, c_string_idem, List.map_reverse]

theorem lifo_order_witness :
    WF fresh_state [] ∧ (addrs [(1, bytes "a"), (2, bytes "bc")]).Nodup ∧
    (∀ x ∈ [(1, bytes "a"), ((2 : Nat), bytes "bc")], strlen x.2 < 4) ∧
    (insert_head_all fresh_state [(1, bytes "a"), (2, bytes "bc")]).2 =
      List.replicate [(1, bytes "a"), ((2 : Nat), bytes "bc")].length true ∧
    ∃ st2 outs,
      remove_head_n 4 [(1, bytes "a"), ((2 : Nat), bytes "bc")].length
          (insert_head_all fresh_state [(1, bytes "a"), (2, bytes "bc")]).1 ff_buf =
        some (st2, outs) ∧
      outs.map Prod.fst =
        List.replicate [(1, bytes "a"), ((2 : Nat), bytes "bc")].length true ∧
      outs.map (fun o => buf_string o.2 4) =
        ([(1, bytes "a"), ((2 : Nat), bytes "bc")].map (fun x => c_string x.2)).reverse ∧
      WF st2 [] ∧ q_size st2 = 0 :=
  ⟨fresh_state_wf, by decide, by decide,
    lifo_order fresh_state [(1, bytes "a"), (2, bytes "bc")] ff_buf 4 fresh_state_wf
      (by decide) (by decide)⟩

theorem heap_set_free {h : Heap} {a : Nat} (e : list_ele_t) (hfresh : h a = none) :
    (h.set a e).free a = h := by
  funext b
  by_cases hb : b = a
  · subst hb; simp [Heap.free, hfresh]
  · simp [Heap.free, Heap.set, hb]

/-- C8: for every well-formed queue and every string `s` shorter than
`bufsize`, a successful `q_insert_head` (the element is allocated at a fresh
address `a`) followed immediately by `q_remove_head` returns `true`, leaves
the string `s` followed by a terminator in the buffer, and restores the whole
memory, hence the element sequence and the count of the queue. -/
theorem insert_head_remove_head_roundtrip (st : State) (nodes : List Node) (s : List Nat)
    (a : Nat) (sp : Buf) (bufsize : Nat)
    (hwf : WF st nodes) (hfresh : st.heap a = none) (hlen : strlen s < bufsize) :
    (q_insert_head st s (some a) true).2 = true ∧
    ∃ buf, q_remove_head (q_insert_head st s (some a) true).1 (some sp) bufsize =
        some (st, some buf, true) ∧
      readBuf buf (strlen s + 1) = c_string s ++ [0] ∧
      buf_string buf bufsize = c_string s := by
  have ha : a ∉ addrs nodes := fun hm => by
    obtain ⟨_, _, hch, _, _⟩ := hwf
    exact chain_alloc hch a hm hfresh
  obtain ⟨hok, hwf1⟩ := q_insert_head_spec hwf s ha
  have hlen' : strlen (c_string s) < bufsize := by rw [strlen_c_string]; exact hlen
  obtain ⟨st2, b, hrun, hwf2, hheap, hread, hbs⟩ := q_remove_head_short hwf1 sp bufsize hlen'
  have hst : st2 = st := by
    have hq := WF_q_eq hwf hwf2
    have hh : st2.heap = st.heap := by
      rw [hheap]
      obtain ⟨q, hq0, _, _, _⟩ := hwf
      simp only [q_insert_head, hq0, Bool.true_eq_false, if_false]
      exact heap_set_free _ hfresh
    cases st; cases st2
    simp only at hq hh
    rw [hq, hh]
  rw [hst] at hrun
  refine ⟨hok, b, hrun, ?_, ?_⟩
  · have := hread
    simp only [strlen_c_string, c_string_idem] at this
    exact this
  · rw [hbs]
    exact c_string_idem s

theorem insert_head_remove_head_roundtrip_witness :
    WF demo_state2 [(1, [97]), (2, [98])] ∧ demo_state2.heap 3 = none ∧
    strlen (bytes "hi") < 4 ∧
    (q_insert_head demo_state2 (bytes "hi") (some 3) true).2 = true ∧
    ∃ buf, q_remove_head (q_insert_head demo_state2 (bytes "hi") (some 3) true).1
          (some ff_buf) 4 = some (demo_state2, some buf, true) ∧
      readBuf buf (strlen (bytes "hi") + 1) = c_string (bytes "hi") ++ [0] ∧
      buf_string buf 4 = c_string (bytes "hi") :=
  ⟨demo_state2_wf, by decide, by decide,
    insert_head_remove_head_roundtrip demo_state2 [(1, [97]), (2, [98])] (bytes "hi") 3
      ff_buf 4 demo_state2_wf (by decide) (by decide)⟩

/-! ### Failure results and no-op cases -/

theorem WF_functional {st : State} {l1 l2 : List Node} (h1 : WF st l1) (h2 : WF st l2) :
    l1 = l2 := by
  obtain ⟨q, hq, hch, _, _⟩ := h1
  obtain ⟨q', hq', hch', _, _⟩ := h2
  rw [hq] at hq'; cases hq'
  exact chain_functional hch hch'

/-- C14: on a queue that is absent, or well formed, `q_remove_head` returns
`false` if and only if the queue is absent or empty, and in that case the
memory (the heap of elements and the queue object with its head, tail and
count) and the output buffer are exactly what they were.  In full: on an
absent or empty queue the call returns `false` and changes nothing; on a
non-empty queue it returns `true` whenever the buffer is `NULL` or the
capacity is not zero (with a non-NULL buffer of capacity zero the copy-out
may not return); and whenever the call returns, the flag is `false` exactly
on an absent or empty queue. -/
theorem q_remove_head_false_iff (st : State) (sp : Option Buf) (bufsize : Nat)
    (hst : st.q = none ∨ ∃ nodes, WF st nodes) :
    ((st.q = none ∨ WF st []) → q_remove_head st sp bufsize = some (st, sp, false)) ∧
    (¬ (st.q = none ∨ WF st []) → (sp = none ∨ 0 < bufsize) →
      ∃ st' sp', q_remove_head st sp bufsize = some (st', sp', true)) ∧
    (∀ st' sp' ok, q_remove_head st sp bufsize = some (st', sp', ok) →
      (ok = false ↔ (st.q = none ∨ WF st [])) ∧ (ok = false → st' = st ∧ sp' = sp)) := by
  have hempty : (st.q = none ∨ WF st []) →
      q_remove_head st sp bufsize = some (st, sp, false) := by
    rintro (hq | hwf)
    · simp [q_remove_head, hq]
    · obtain ⟨q, hq, hch, _, _⟩ := hwf
      have hhead : q.head = none := hch
      simp [q_remove_head, hq, hhead]
  refine ⟨hempty, ?_, ?_⟩
  · intro hne hsafe
    rcases hst with hq | ⟨nodes, hwf⟩
    · exact absurd (Or.inl hq) hne
    · cases nodes with
      | nil => exact absurd (Or.inr hwf) hne
      | cons n rest =>
        obtain ⟨st', sp', hrun, _⟩ := q_remove_head_returns hwf sp bufsize hsafe
        exact ⟨st', sp', hrun⟩
  · intro st' sp' ok hrun
    by_cases he : st.q = none ∨ WF st []
    · rw [hempty he] at hrun
      cases hrun
      exact ⟨by simp [he], fun _ => ⟨rfl, rfl⟩⟩
    · rcases hst with hq | ⟨nodes, hwf⟩
      · exact absurd (Or.inl hq) he
      · cases nodes with
        | nil => exact absurd (Or.inr hwf) he
        | cons n rest =>
          have hok := (q_remove_head_result hwf sp bufsize _ hrun).1
          simp only at hok
          subst hok
          exact ⟨by simp [he], by simp⟩

theorem hello_state_not_empty : ¬ (hello_state.q = none ∨ WF hello_state []) := by
  rintro (h | h)
  · exact absurd h (by decide)
  · exact absurd (WF_functional hello_state_wf h) (by simp)

theorem q_remove_head_false_iff_witness :
    ((fresh_state.q = none ∨ ∃ nodes, WF fresh_state nodes) ∧
      (fresh_state.q = none ∨ WF fresh_state []) ∧
      q_remove_head fresh_state (some ff_buf) 4 = some (fresh_state, some ff_buf, false) ∧
      (false = false ↔ (fresh_state.q = none ∨ WF fresh_state [])) ∧
      (false = false → fresh_state = fresh_state ∧ some ff_buf = some ff_buf)) ∧
    ((hello_state.q = none ∨ ∃ nodes, WF hello_state nodes) ∧
      ¬ (hello_state.q = none ∨ WF hello_state []) ∧ (some ff_buf = none ∨ 0 < 4) ∧
      ∃ st' sp', q_remove_head hello_state (some ff_buf) 4 = some (st', sp', true)) :=
  ⟨⟨Or.inr ⟨[], fresh_state_wf⟩, Or.inr fresh_state_wf,
      (q_remove_head_false_iff fresh_state (some ff_buf) 4 (Or.inr ⟨[], fresh_state_wf⟩)).1
        (Or.inr fresh_state_wf),
      (q_remove_head_false_iff fresh_state (some ff_buf) 4
        (Or.inr ⟨[], fresh_state_wf⟩)).2.2 fresh_state (some ff_buf) false
        ((q_remove_head_false_iff fresh_state (some ff_buf) 4
          (Or.inr ⟨[], fresh_state_wf⟩)).1 (Or.inr fresh_state_wf))⟩,
    ⟨Or.inr ⟨_, hello_state_wf⟩, hello_state_not_empty, Or.inr (by decide),
      (q_remove_head_false_iff hello_state (some ff_buf) 4
        (Or.inr ⟨_, hello_state_wf⟩)).2.1 hello_state_not_empty (Or.inr (by decide))⟩⟩

/-- C15: `q_insert_head` and `q_insert_tail` (on a queue that is absent or
well formed) return `false` exactly when the queue is absent, the allocation
of the element fails or the allocation of the string fails, and `true`
otherwise; when they return `false` the memory (heap, head, tail and count)
is unchanged. -/
theorem q_insert_false_iff (st : State) (s : List Nat) (newh : Option Nat) (value_ok : Bool)
    (hst : st.q = none ∨ ∃ nodes, WF st nodes) :
    (((q_insert_head st s newh value_ok).2 = false ↔
        (st.q = none ∨ newh = none ∨ value_ok = false)) ∧
      ((q_insert_head st s newh value_ok).2 = false →
        (q_insert_head st s newh value_ok).1 = st)) ∧
    ∃ st' ok, q_insert_tail st s newh value_ok = some (st', ok) ∧
      (ok = false ↔ (st.q = none ∨ newh = none ∨ value_ok = false)) ∧
      (ok = false → st' = st) := by
  constructor
  · cases hq : st.q with
    | none => simp [q_insert_head, hq]
    | some q =>
      cases newh with
      | none => simp [q_insert_head, hq]
      | some a =>
        cases value_ok with
        | false => simp [q_insert_head, hq]
        | true => simp [q_insert_head, hq]
  · rcases hst with hq | ⟨nodes, hwf⟩
    · exact ⟨st, false, by simp [q_insert_tail, hq], by simp [hq], fun _ => rfl⟩
    · obtain ⟨q, hq, hch, htail, hsize⟩ := id hwf
      cases newh with
      | none => exact ⟨st, false, by simp [q_insert_tail, hq], by simp, fun _ => rfl⟩
      | some a =>
        cases value_ok with
        | false => exact ⟨st, false, by simp [q_insert_tail, hq], by simp, fun _ => rfl⟩
        | true =>
          cases nodes with
          | nil =>
            have hs : q.size = 0 := by simpa using hsize
            exact ⟨_, true, by simp only [q_insert_tail, hq, hs]; simp; rfl, by simp [hq],
              by simp⟩
          | cons n rest =>
            have hs : ¬ (q.size = 0) := by
              rw [hsize]; simp only [List.length_cons]; push_cast; omega
            have hne : last_ptr (n :: rest) ≠ none := by simp [last_ptr]
            obtain ⟨t, ht⟩ := Option.ne_none_iff_exists'.1 hne
            have htm := last_ptr_mem ht
            obtain ⟨te, hte⟩ := Option.ne_none_iff_exists'.1 (chain_alloc hch t htm)
            by_cases hta : t = a
            · subst hta
              exact ⟨_, true, by
                simp only [q_insert_tail, hq, hs, htail, ht, heap_set_same]
                simp; rfl, by simp [hq], by simp⟩
            · exact ⟨_, true, by
                simp only [q_insert_tail, hq, hs, htail, ht, heap_set_other _ _ hta, hte]
                simp; rfl, by simp [hq], by simp⟩

theorem q_insert_false_iff_witness :
    (demo_state2.q = none ∨ ∃ nodes, WF demo_state2 nodes) ∧
    (((q_insert_head demo_state2 (bytes "hi") (some 3) false).2 = false ↔
        (demo_state2.q = none ∨ some 3 = none ∨ false = false)) ∧
      ((q_insert_head demo_state2 (bytes "hi") (some 3) false).2 = false →
        (q_insert_head demo_state2 (bytes "hi") (some 3) false).1 = demo_state2)) ∧
    ∃ st' ok, q_insert_tail demo_state2 (bytes "hi") (some 3) false = some (st', ok) ∧
      (ok = false ↔ (demo_state2.q = none ∨ some 3 = none ∨ false = false)) ∧
      (ok = false → st' = demo_state2) :=
  ⟨Or.inr ⟨_, demo_state2_wf⟩,
    q_insert_false_iff demo_state2 (bytes "hi") (some 3) false (Or.inr ⟨_, demo_state2_wf⟩)⟩

theorem heap_set_self {h : Heap} {a : Nat} {e : list_ele_t} (he : h a = some e) :
    h.set a e = h := by
  funext b
  by_cases hb : b = a
  · subst hb; simp [Heap.set, he]
  · simp [Heap.set, hb]

/-- C16: `q_reverse` on an absent or empty queue returns at once, whatever the
heap and without entering its loop (no fuel is needed), leaves the memory
unchanged, and `q_size` is 0 before and after; on a well-formed single-element
queue it leaves the whole memory (the element with its link, head, tail and
count) unchanged. -/
theorem q_reverse_noop (st : State) (fuel : Nat) :
    ((st.q = none ∨ WF st []) → q_reverse fuel st = some st ∧ q_size st = 0) ∧
    (∀ x, WF st [x] → 1 < fuel → q_reverse fuel st = some st) := by
  constructor
  · rintro (hq | hwf)
    · simp [q_reverse, q_size, hq]
    · obtain ⟨q, hq, hch, _, hsize⟩ := id hwf
      have hhead : q.head = none := hch
      exact ⟨by simp [q_reverse, hq, hhead], WF_nil_size hwf⟩
  · intro x hwf hf
    obtain ⟨q, hq, hch, htail, hsize⟩ := hwf
    obtain ⟨hhead, nx, hx, hrest⟩ := hch
    have hnx : nx = none := hrest
    subst hnx
    obtain ⟨f, rfl⟩ : ∃ f, fuel = f + 2 := ⟨fuel - 2, by omega⟩
    have htl : q.tail = some x.1 := by simpa [last_ptr] using htail
    simp only [q_reverse, hq, hhead, q_reverse_loop, hx, heap_set_self hx]
    cases st
    cases q
    simp only at hq hhead htl
    simp [hq, hhead, htl]

theorem q_reverse_noop_witness :
    ((fresh_state.q = none ∨ WF fresh_state []) ∧
      q_reverse 0 fresh_state = some fresh_state ∧ q_size fresh_state = 0) ∧
    (WF hello_state [(1, bytes "hello")] ∧ 1 < 2 ∧
      q_reverse 2 hello_state = some hello_state) :=
  ⟨⟨Or.inr fresh_state_wf, (q_reverse_noop fresh_state 0).1 (Or.inr fresh_state_wf)⟩,
    ⟨hello_state_wf, by decide,
      (q_reverse_noop hello_state 2).2 (1, bytes "hello") hello_state_wf (by decide)⟩⟩

/-- C17: for every well-formed two-element queue `[x, y]`, `q_sort` leaves
`[x, y]` when `strncmp(x, y, strlen(x)) < 0` (the comparison is bounded by the
length of the left string) and `[y, x]` otherwise; so the queue after the sort
is `[x, y]` if and only if that bounded comparison is strictly negative. -/
theorem q_sort_two (st : State) (x y : Node) (fuel : Nat)
    (hwf : WF st [x, y]) (hf : 3 < fuel) :
    ∃ st', q_sort fuel st = some st' ∧
      (strncmp x.2 y.2 (strlen x.2) < 0 → WF st' [x, y]) ∧
      (¬ strncmp x.2 y.2 (strlen x.2) < 0 → WF st' [y, x]) ∧
      (WF st' [x, y] ↔ strncmp x.2 y.2 (strlen x.2) < 0) := by
  obtain ⟨st', hrun, hwf', _⟩ := q_sort_spec hwf (by simpa using hf)
  have hne : x.1 ≠ y.1 := by
    obtain ⟨_, _, hch, _, _⟩ := hwf
    have := chain_not_mem_tail hch
    intro e; exact this (by simp [addrs, e])
  have hxy : [x, y] ≠ [y, x] := by
    intro e
    simp only [List.cons.injEq, and_true] at e
    exact hne (congrArg Prod.fst e.1)
  by_cases hlt : strncmp x.2 y.2 (strlen x.2) < 0
  · have hs : sort_nodes [x, y] = [x, y] := by
      simp [sort_nodes, insert_node, node_first, left_first, hlt]
    rw [hs] at hwf'
    exact ⟨st', hrun, fun _ => hwf', fun h => absurd hlt h, by simp [hwf', hlt]⟩
  · have hs : sort_nodes [x, y] = [y, x] := by
      simp [sort_nodes, insert_node, node_first, left_first, hlt]
    rw [hs] at hwf'
    refine ⟨st', hrun, fun h => absurd h hlt, fun _ => hwf', ?_⟩
    simp only [hlt, iff_false]
    intro h
    exact hxy (WF_functional h hwf')

theorem q_sort_two_witness :
    WF demo_state_ba [(1, [98]), (2, [97])] ∧ 3 < 4 ∧
    ∃ st', q_sort 4 demo_state_ba = some st' ∧
      (strncmp [98] [97] (strlen [98]) < 0 → WF st' [(1, [98]), (2, [97])]) ∧
      (¬ strncmp [98] [97] (strlen [98]) < 0 → WF st' [(2, [97]), (1, [98])]) ∧
      (WF st' [(1, [98]), (2, [97])] ↔ strncmp [98] [97] (strlen [98]) < 0) :=
  ⟨demo_state_ba_wf, by decide,
    q_sort_two demo_state_ba (1, [98]) (2, [97]) 4 demo_state_ba_wf (by decide)⟩

/-! ### Sequences of calls and the invariant -/

theorem WF_size {st : State} {nodes : List Node} (hwf : WF st nodes) :
    q_size st = (nodes.length : Int) := by
  obtain ⟨q, hq, _, _, hsize⟩ := hwf
  simp [q_size, hq, hsize]

theorem fresh_addr_not_mem {st : State} {nodes : List Node} {a : Nat} (hwf : WF st nodes)
    (hfr : fresh_addr st.heap (some a) = true) : a ∉ addrs nodes := by
  intro hm
  obtain ⟨_, _, hch, _, _⟩ := hwf
  have := chain_alloc hch a hm
  simp only [fresh_addr, Option.isNone_iff_eq_none] at hfr
  exact this hfr

theorem op_safe_remove {sp : Option Buf} {bufsize : Nat}
    (h : (Op.remove_head sp bufsize).safe = true) : sp = none ∨ 0 < bufsize := by
  cases sp with
  | none => exact Or.inl rfl
  | some b =>
    cases bufsize with
    | zero => simp [Op.safe] at h
    | succ k => exact Or.inr (Nat.succ_pos k)

/-- One call that is certain to return, on a well-formed queue, with the
contract of `malloc`: the call returns, the queue stays well formed, and the
count moves by one exactly when the call returns `true`. -/
theorem op_call_wf (st : State) (op : Op) (nodes : List Node) (hwf : WF st nodes)
    (hfr : op.fresh st = true) (hsafe : op.safe = true) :
    ∃ st1 ok, op.call st = some (st1, ok) ∧ (∃ nodes1, WF st1 nodes1) ∧
      q_size st1 = q_size st + (if ok then (if op.is_insert then 1 else -1) else 0) := by
  cases op with
  | insert_head s newh value_ok =>
    cases newh with
    | none =>
      refine ⟨st, false, ?_, ⟨nodes, hwf⟩, by simp⟩
      obtain ⟨q, hq, _⟩ := hwf
      simp [Op.call, q_insert_head, hq]
    | some a =>
      cases value_ok with
      | false =>
        refine ⟨st, false, ?_, ⟨nodes, hwf⟩, by simp⟩
        obtain ⟨q, hq, _⟩ := hwf
        simp [Op.call, q_insert_head, hq]
      | true =>
        obtain ⟨hok, hwf1⟩ := q_insert_head_spec hwf s (fresh_addr_not_mem hwf hfr)
        refine ⟨(q_insert_head st s (some a) true).1, true, ?_, ⟨_, hwf1⟩, ?_⟩
        · simp only [Op.call, Option.some.injEq]
          exact Prod.ext rfl hok
        · rw [WF_size hwf1, WF_size hwf]
          simp [Op.is_insert]
  | insert_tail s newh value_ok =>
    cases newh with
    | none =>
      refine ⟨st, false, ?_, ⟨nodes, hwf⟩, by simp⟩
      obtain ⟨q, hq, _⟩ := hwf
      simp [Op.call, q_insert_tail, hq]
    | some a =>
      cases value_ok with
      | false =>
        refine ⟨st, false, ?_, ⟨nodes, hwf⟩, by simp⟩
        obtain ⟨q, hq, _⟩ := hwf
        simp [Op.call, q_insert_tail, hq]
      | true =>
        obtain ⟨st1, hrun, hwf1⟩ := q_insert_tail_spec hwf s (fresh_addr_not_mem hwf hfr)
        refine ⟨st1, true, by simp [Op.call, hrun], ⟨_, hwf1⟩, ?_⟩
        rw [WF_size hwf1, WF_size hwf]
        simp [Op.is_insert]
  | remove_head sp bufsize =>
    cases nodes with
    | nil =>
      refine ⟨st, false, ?_, ⟨[], hwf⟩, by simp⟩
      obtain ⟨q, hq, hch, _⟩ := hwf
      have hhead : q.head = none := hch
      simp [Op.call, q_remove_head, hq, hhead]
    | cons n rest =>
      obtain ⟨st1, sp1, hrun, hwf1⟩ :=
        q_remove_head_returns hwf sp bufsize (op_safe_remove hsafe)
      refine ⟨st1, true, by simp [Op.call, hrun], ⟨_, hwf1⟩, ?_⟩
      rw [WF_size hwf1, WF_size hwf]
      simp [Op.is_insert]

/-- Whenever a call on a well-formed queue returns, the queue stays well
formed and the count moves by one exactly when the call returns `true`. -/
theorem op_call_wf_result (st : State) (op : Op) (nodes : List Node) (hwf : WF st nodes)
    (hfr : op.fresh st = true) (st1 : State) (ok : Bool)
    (hcall : op.call st = some (st1, ok)) :
    (∃ nodes1, WF st1 nodes1) ∧
      q_size st1 = q_size st + (if ok then (if op.is_insert then 1 else -1) else 0) := by
  cases op with
  | insert_head s newh value_ok =>
    obtain ⟨st2, ok2, hcall2, h1, h2⟩ := op_call_wf st _ nodes hwf hfr rfl
    rw [hcall] at hcall2
    cases hcall2
    exact ⟨h1, h2⟩
  | insert_tail s newh value_ok =>
    obtain ⟨st2, ok2, hcall2, h1, h2⟩ := op_call_wf st _ nodes hwf hfr rfl
    rw [hcall] at hcall2
    cases hcall2
    exact ⟨h1, h2⟩
  | remove_head sp bufsize =>
    cases nodes with
    | nil =>
      obtain ⟨st2, ok2, hcall2, h1, h2⟩ :=
        op_call_wf st (Op.remove_head none bufsize) [] hwf rfl rfl
      have hsame : (Op.remove_head sp bufsize).call st = some (st, false) := by
        obtain ⟨q, hq, hch, _⟩ := hwf
        have hhead : q.head = none := hch
        simp [Op.call, q_remove_head, hq, hhead]
      rw [hcall] at hsame
      cases hsame
      exact ⟨⟨[], hwf⟩, by simp⟩
    | cons n rest =>
      simp only [Op.call, Option.map_eq_some'] at hcall
      obtain ⟨r, hr, hpair⟩ := hcall
      obtain ⟨hok, hwf1⟩ := q_remove_head_result hwf sp bufsize r hr
      cases hpair
      refine ⟨⟨_, hwf1⟩, ?_⟩
      rw [WF_size hwf1, WF_size hwf, hok]
      simp [Op.is_insert]

theorem op_call_absent (st : State) (op : Op) (hq : st.q = none) :
    op.call st = some (st, false) := by
  cases op with
  | insert_head s newh value_ok => simp [Op.call, q_insert_head, hq]
  | insert_tail s newh value_ok => simp [Op.call, q_insert_tail, hq]
  | remove_head sp bufsize => simp [Op.call, q_remove_head, hq]

/-- One call that is certain to return, on a queue that is absent or well
formed: as `op_call_wf`; every call on an absent queue returns `false` and
changes nothing. -/
theorem op_call_spec (st : State) (op : Op) (hst : st.q = none ∨ ∃ nodes, WF st nodes)
    (hfr : op.fresh st = true) (hsafe : op.safe = true) :
    ∃ st1 ok, op.call st = some (st1, ok) ∧ (st1.q = none ∨ ∃ nodes, WF st1 nodes) := by
  rcases hst with hq | ⟨nodes, hwf⟩
  · exact ⟨st, false, op_call_absent st op hq, Or.inl hq⟩
  · obtain ⟨st1, ok, hcall, hwf1, _⟩ := op_call_wf st op nodes hwf hfr hsafe
    exact ⟨st1, ok, hcall, Or.inr hwf1⟩

/-- Whenever a call on a queue that is absent or well formed returns, the
queue stays absent or well formed and the count moves by one exactly when the
call returns `true`. -/
theorem op_call_result (st : State) (op : Op) (hst : st.q = none ∨ ∃ nodes, WF st nodes)
    (hfr : op.fresh st = true) (st1 : State) (ok : Bool)
    (hcall : op.call st = some (st1, ok)) :
    (st1.q = none ∨ ∃ nodes, WF st1 nodes) ∧
      q_size st1 = q_size st + (if ok then (if op.is_insert then 1 else -1) else 0) := by
  rcases hst with hq | ⟨nodes, hwf⟩
  · rw [op_call_absent st op hq] at hcall
    cases hcall
    exact ⟨Or.inl hq, by simp⟩
  · obtain ⟨h1, h2⟩ := op_call_wf_result st op nodes hwf hfr st1 ok hcall
    exact ⟨Or.inr h1, h2⟩

/-- A sequence of calls that are certain to return, returns. -/
theorem run_ops_returns (ops : List Op) :
    ∀ (st : State), (st.q = none ∨ ∃ nodes, WF st nodes) → fresh_ops st ops = true →
      safe_ops ops = true → ∃ st' flags, run_ops st ops = some (st', flags) := by
  induction ops with
  | nil =>
    intro st _ _ _
    exact ⟨st, [], rfl⟩
  | cons op ops ih =>
    intro st hst hfr hsafe
    simp only [fresh_ops, Bool.and_eq_true] at hfr
    simp only [safe_ops, List.all_cons, Bool.and_eq_true] at hsafe
    obtain ⟨st1, ok, hcall, hst1⟩ := op_call_spec st op hst hfr.1 hsafe.1
    have hfr2 : fresh_ops st1 ops = true := by
      have := hfr.2
      rw [hcall] at this
      exact this
    obtain ⟨st', flags, hrun⟩ := ih st1 hst1 hfr2 hsafe.2
    exact ⟨st', ok :: flags, by simp [run_ops, hcall, hrun]⟩

/-- Whenever a sequence of calls returns, there is one flag per call and the
count has moved by the net number of successful calls. -/
theorem run_ops_result (ops : List Op) :
    ∀ (st : State), (st.q = none ∨ ∃ nodes, WF st nodes) → fresh_ops st ops = true →
      ∀ st' flags, run_ops st ops = some (st', flags) →
        flags.length = ops.length ∧ q_size st' = q_size st + net_count ops flags := by
  induction ops with
  | nil =>
    intro st _ _ st' flags hrun
    simp only [run_ops, Option.some.injEq, Prod.mk.injEq] at hrun
    obtain ⟨rfl, rfl⟩ := hrun
    simp [net_count]
  | cons op ops ih =>
    intro st hst hfr st' flags hrun
    simp only [fresh_ops, Bool.and_eq_true] at hfr
    simp only [run_ops] at hrun
    cases hcall : op.call st with
    | none => rw [hcall] at hrun; exact absurd hrun (by simp)
    | some r =>
      obtain ⟨st1, ok⟩ := r
      rw [hcall] at hrun
      simp only [Option.map_eq_some'] at hrun
      obtain ⟨r2, hr2, hpair⟩ := hrun
      obtain ⟨hst1, hsz⟩ := op_call_result st op hst hfr.1 st1 ok hcall
      have hfr2 : fresh_ops st1 ops = true := by
        have := hfr.2
        rw [hcall] at this
        exact this
      obtain ⟨hlen, hsz'⟩ := ih st1 hst1 hfr2 r2.1 r2.2 hr2
      cases hpair
      refine ⟨by simp [hlen], ?_⟩
      rw [hsz', hsz]
      simp only [net_count]
      ring

/-- C11: for every sequence of `q_insert_head`, `q_insert_tail` and
`q_remove_head` calls made on the result of `q_new` (a freshly created queue,
or `NULL` when its allocation failed), with allocation results that respect
the contract of `malloc`: whenever the calls return, the final `q_size` is the
number of insertions that returned `true` minus the number of removals that
returned `true`; and the calls do all return when no removal passes a
non-NULL buffer of capacity zero (the copy-out of such a call may not
return). -/
theorem q_size_net_count (h0 : Heap) (ok : Bool) (ops : List Op)
    (hfr : fresh_ops { heap := h0, q := q_new ok } ops = true) :
    (safe_ops ops = true →
      ∃ st' flags, run_ops { heap := h0, q := q_new ok } ops = some (st', flags)) ∧
    (∀ st' flags, run_ops { heap := h0, q := q_new ok } ops = some (st', flags) →
      flags.length = ops.length ∧ q_size st' = net_count ops flags) := by
  have hst : ({ heap := h0, q := q_new ok } : State).q = none ∨
      ∃ nodes, WF { heap := h0, q := q_new ok } nodes := by
    cases ok with
    | false => exact Or.inl rfl
    | true => exact Or.inr ⟨[], _, rfl, rfl, rfl, rfl⟩
  refine ⟨run_ops_returns ops _ hst hfr, ?_⟩
  intro st' flags hrun
  obtain ⟨hlen, hsz⟩ := run_ops_result ops _ hst hfr st' flags hrun
  refine ⟨hlen, ?_⟩
  rw [hsz]
  cases ok <;> simp [q_size, q_new]

theorem q_size_net_count_witness :
    fresh_ops { heap := fun _ => none, q := q_new true } demo_ops = true ∧
    safe_ops demo_ops = true ∧
    ∃ st' flags, run_ops { heap := fun _ => none, q := q_new true } demo_ops =
        some (st', flags) ∧
      flags.length = demo_ops.length ∧ q_size st' = net_count demo_ops flags :=
  ⟨by decide, by decide,
    match (q_size_net_count (fun _ => none) true demo_ops (by decide)).1 (by decide) with
    | ⟨st', flags, hrun⟩ =>
      ⟨st', flags, hrun,
        (q_size_net_count (fun _ => none) true demo_ops (by decide)).2 st' flags hrun⟩⟩

/-- The flags and the final count of the example sequence. -/
theorem run_demo_ops :
    (run_ops fresh_state demo_ops).map (fun r => (r.2, q_size r.1)) =
      some ([true, true, true, false, true, false, false], 0) := by
  decide

theorem last_ptr_cons_ne_none (n : Node) (rest : List Node) : last_ptr (n :: rest) ≠ none := by
  simp [last_ptr]

theorem queue_invariant_of_WF {st : State} {nodes : List Node} (hwf : WF st nodes) :
    queue_invariant st := by
  obtain ⟨q, hq, hch, htail, hsize⟩ := hwf
  have hhead := chain_first hch
  refine ⟨q, hq, ?_, ?_, ?_, ⟨nodes, hch, hsize.symm, htail.symm⟩, ?_⟩
  · cases nodes with
    | nil => simp [hsize, hhead, first_ptr]
    | cons n rest =>
      simp only [hsize, hhead, first_ptr_cons, List.length_cons]
      constructor
      · intro h; push_cast at h; omega
      · intro h; exact absurd h (by simp)
  · cases nodes with
    | nil => simp [hhead, htail, first_ptr, last_ptr]
    | cons n rest =>
      rw [hhead, htail, first_ptr_cons]
      constructor
      · intro h; exact absurd h (by simp)
      · intro h; exact absurd h (last_ptr_cons_ne_none n rest)
  · intro h1
    match nodes, hhead, htail, hsize with
    | [], _, _, hsize => rw [hsize] at h1; simp at h1
    | [x], hhead, htail, _ => rw [hhead, htail]; rfl
    | x :: y :: rest, _, _, hsize =>
      rw [hsize] at h1; simp only [List.length_cons] at h1; push_cast at h1; omega
  · intro t ht
    obtain ⟨v, hv⟩ := chain_last_next hch t (htail ▸ ht)
    exact ⟨_, hv, rfl⟩

theorem WF_of_queue_invariant {st : State} (hinv : queue_invariant st) :
    ∃ nodes, WF st nodes := by
  obtain ⟨q, hq, _, _, _, ⟨nodes, hch, hlen, hlast⟩, _⟩ := hinv
  exact ⟨nodes, q, hq, hch, hlast.symm, hlen.symm⟩

theorem fresh_addr_of_forall {h : Heap} {newh : Option Nat}
    (hfr : ∀ a, newh = some a → h a = none) : fresh_addr h newh = true := by
  cases newh with
  | none => rfl
  | some a => simp [fresh_addr, hfr a rfl]

/-- C12: the invariant of the data model (count zero iff head absent iff tail
absent; count one implies head and tail are the same element; the `next` links
from head visit exactly `count` elements, end at the tail and terminate; the
`next` link of the tail is absent) holds for the queue returned by `q_new`,
and every call of `q_insert_head`, `q_insert_tail`, `q_remove_head`,
`q_reverse` and `q_sort` on a queue that satisfies it leaves a queue that
satisfies it, whatever the outcome of the allocations (which respect the
contract of `malloc`) and whatever flag is returned.  The calls return, given
fuel for the loops; for `q_remove_head` this holds when the buffer is `NULL`
or the capacity is not zero (the copy-out into a non-NULL buffer of capacity
zero may not return), and whenever `q_remove_head` returns the invariant
holds. -/
theorem queue_invariant_preserved :
    (∀ h0, queue_invariant { heap := h0, q := q_new true }) ∧
    ∀ st, queue_invariant st →
      (∀ s newh value_ok, (∀ a, newh = some a → st.heap a = none) →
        queue_invariant (q_insert_head st s newh value_ok).1) ∧
      (∀ s newh value_ok, (∀ a, newh = some a → st.heap a = none) →
        ∃ r, q_insert_tail st s newh value_ok = some r ∧ queue_invariant r.1) ∧
      (∀ sp bufsize, (sp = none ∨ 0 < bufsize) →
        ∃ r, q_remove_head st sp bufsize = some r ∧ queue_invariant r.1) ∧
      (∀ sp bufsize r, q_remove_head st sp bufsize = some r → queue_invariant r.1) ∧
      (∀ fuel : Nat, q_size st < fuel →
        ∃ st', q_reverse fuel st = some st' ∧ queue_invariant st') ∧
      (∀ fuel : Nat, q_size st + 1 < fuel →
        ∃ st', q_sort fuel st = some st' ∧ queue_invariant st') := by
  refine ⟨fun h0 => ?_, ?_⟩
  · have hnew : WF { heap := h0, q := q_new true } [] := ⟨_, rfl, rfl, rfl, rfl⟩
    exact queue_invariant_of_WF hnew
  intro st hinv
  obtain ⟨nodes, hwf⟩ := WF_of_queue_invariant hinv
  have hempty : ∀ sp bufsize, WF st [] →
      q_remove_head st sp bufsize = some (st, sp, false) := by
    intro sp bufsize h
    obtain ⟨q, hq, hch, _⟩ := h
    have hhead : q.head = none := hch
    simp [q_remove_head, hq, hhead]
  refine ⟨?_, ?_, ?_, ?_, ?_, ?_⟩
  · intro s newh value_ok hfr
    obtain ⟨st1, ok, hcall, ⟨nodes1, h1⟩, _⟩ :=
      op_call_wf st (Op.insert_head s newh value_ok) nodes hwf (fresh_addr_of_forall hfr) rfl
    simp only [Op.call, Option.some.injEq] at hcall
    rw [hcall]
    exact queue_invariant_of_WF h1
  · intro s newh value_ok hfr
    obtain ⟨st1, ok, hcall, ⟨nodes1, h1⟩, _⟩ :=
      op_call_wf st (Op.insert_tail s newh value_ok) nodes hwf (fresh_addr_of_forall hfr) rfl
    exact ⟨(st1, ok), hcall, queue_invariant_of_WF h1⟩
  · intro sp bufsize hsafe
    cases nodes with
    | nil => exact ⟨(st, sp, false), hempty sp bufsize hwf, queue_invariant_of_WF hwf⟩
    | cons n rest =>
      obtain ⟨st1, sp1, hrun, hwf1⟩ := q_remove_head_returns hwf sp bufsize hsafe
      exact ⟨_, hrun, queue_invariant_of_WF hwf1⟩
  · intro sp bufsize r hr
    cases nodes with
    | nil =>
      rw [hempty sp bufsize hwf] at hr
      cases hr
      exact queue_invariant_of_WF hwf
    | cons n rest => exact queue_invariant_of_WF (q_remove_head_result hwf sp bufsize r hr).2
  · intro fuel hf
    rw [WF_size hwf] at hf
    obtain ⟨st', hrun, hwf', _⟩ := q_reverse_spec hwf (by exact_mod_cast hf)
    exact ⟨st', hrun, queue_invariant_of_WF hwf'⟩
  · intro fuel hf
    rw [WF_size hwf] at hf
    obtain ⟨st', hrun, hwf', _⟩ := q_sort_spec hwf (by exact_mod_cast hf)
    exact ⟨st', hrun, queue_invariant_of_WF hwf'⟩

theorem empty_string_state_wf : WF empty_string_state [(1, [])] :=
  ⟨_, rfl, ⟨rfl, none, rfl, rfl⟩, rfl, rfl⟩

/-- The removal of an empty string into a buffer of capacity zero returns. -/
theorem empty_string_remove_returns :
    ∃ r, q_remove_head empty_string_state (some ff_buf) 0 = some r := by
  obtain ⟨st', _, _, _, hsome⟩ := q_remove_head_spec empty_string_state_wf 0
  have hc := copy_out_of_le ff_buf ([] : List Nat) 0 (by decide)
  exact ⟨_, by rw [hsome ff_buf, hc]; rfl⟩

theorem queue_invariant_preserved_witness :
    queue_invariant demo_state2 ∧
    (∀ a, some 3 = some a → demo_state2.heap a = none) ∧
    (some ff_buf = none ∨ 0 < 4) ∧
    q_size demo_state2 < (3 : Nat) ∧ q_size demo_state2 + 1 < (4 : Nat) ∧
    queue_invariant (q_insert_head demo_state2 (bytes "hi") (some 3) true).1 ∧
    (∃ r, q_insert_tail demo_state2 (bytes "hi") (some 3) true = some r ∧
      queue_invariant r.1) ∧
    (∃ r, q_remove_head demo_state2 (some ff_buf) 4 = some r ∧ queue_invariant r.1) ∧
    (∃ st', q_reverse 3 demo_state2 = some st' ∧ queue_invariant st') ∧
    (∃ st', q_sort 4 demo_state2 = some st' ∧ queue_invariant st') ∧
    (queue_invariant empty_string_state ∧
      ∃ r, q_remove_head empty_string_state (some ff_buf) 0 = some r ∧
        queue_invariant r.1) :=
  ⟨queue_invariant_of_WF demo_state2_wf, fun a ha => by cases ha; rfl, Or.inr (by decide),
    by decide, by decide,
    (queue_invariant_preserved.2 demo_state2 (queue_invariant_of_WF demo_state2_wf)).1
      (bytes "hi") (some 3) true (fun a ha => by cases ha; rfl),
    (queue_invariant_preserved.2 demo_state2 (queue_invariant_of_WF demo_state2_wf)).2.1
      (bytes "hi") (some 3) true (fun a ha => by cases ha; rfl),
    (queue_invariant_preserved.2 demo_state2 (queue_invariant_of_WF demo_state2_wf)).2.2.1
      (some ff_buf) 4 (Or.inr (by decide)),
    (queue_invariant_preserved.2 demo_state2
      (queue_invariant_of_WF demo_state2_wf)).2.2.2.2.1 3 (by decide),
    (queue_invariant_preserved.2 demo_state2
      (queue_invariant_of_WF demo_state2_wf)).2.2.2.2.2 4 (by decide),
    queue_invariant_of_WF empty_string_state_wf,
    match empty_string_remove_returns with
    | ⟨r, hr⟩ =>
      ⟨r, hr, (queue_invariant_preserved.2 empty_string_state
        (queue_invariant_of_WF empty_string_state_wf)).2.2.2.1 (some ff_buf) 0 r hr⟩⟩

/-! ### The comparison of the merge -/

theorem strlen_nil : strlen [] = 0 := rfl

theorem strlen_cons_zero (cs : List Nat) : strlen (0 :: cs) = 0 := by
  simp [strlen]

theorem strlen_cons_ne {c : Nat} (hc : c ≠ 0) (cs : List Nat) :
    strlen (c :: cs) = strlen cs + 1 := by
  simp [strlen, hc]

theorem left_first_nil (r : List Nat) : left_first [] r = false := by
  simp [left_first, strlen, strncmp]

theorem left_first_cons_zero (cs r : List Nat) : left_first (0 :: cs) r = false := by
  simp [left_first, strlen, strncmp]

theorem left_first_cons_nil {c : Nat} (hc : c ≠ 0) (cs : List Nat) :
    left_first (c :: cs) [] = false := by
  simp only [left_first, strlen_cons_ne hc, strncmp, List.headD_cons, List.headD_nil]
  simp [hc]

theorem left_first_cons_cons {c : Nat} (hc : c ≠ 0) (cs : List Nat) (d : Nat)
    (ds : List Nat) :
    left_first (c :: cs) (d :: ds) = if c = d then left_first cs ds else decide (c < d) := by
  simp only [left_first, strlen_cons_ne hc, strncmp, List.headD_cons, List.tail_cons]
  by_cases hcd : c = d
  · subst hcd; simp [hc]
  · simp only [ne_eq, hcd, not_false_eq_true, if_true, if_false]
    congr 1
    apply propext
    constructor
    · intro h; omega
    · intro h; omega

/-- The test of the merge looks at the two C strings only. -/
theorem left_first_c_string :
    ∀ l r : List Nat, left_first (c_string l) (c_string r) = left_first l r
  | [], r => by rw [c_string_nil, left_first_nil, left_first_nil]
  | c :: cs, r => by
    by_cases hc : c = 0
    · subst hc
      rw [c_string_cons_zero, left_first_nil, left_first_cons_zero]
    · rw [c_string_cons_ne hc]
      cases r with
      | nil => rw [c_string_nil, left_first_cons_nil hc, left_first_cons_nil hc]
      | cons d ds =>
        by_cases hd : d = 0
        · subst hd
          rw [c_string_cons_zero, left_first_cons_nil hc, left_first_cons_cons hc]
          simp [hc]
        · rw [c_string_cons_ne hd, left_first_cons_cons hc, left_first_cons_cons hc,
            left_first_c_string cs ds]

theorem left_first_irrefl : ∀ l : List Nat, left_first l l = false
  | [] => left_first_nil _
  | c :: cs => by
    by_cases hc : c = 0
    · subst hc; exact left_first_cons_zero _ _
    · rw [left_first_cons_cons hc]; simp [left_first_irrefl cs]

theorem left_first_trans :
    ∀ a b c : List Nat, left_first a b = true → left_first b c = true → left_first a c = true
  | [], b, c, h, _ => by rw [left_first_nil] at h; exact absurd h (by simp)
  | x :: xs, b, c, h1, h2 => by
    by_cases hx : x = 0
    · subst hx; rw [left_first_cons_zero] at h1; exact absurd h1 (by simp)
    · cases b with
      | nil => rw [left_first_cons_nil hx] at h1; exact absurd h1 (by simp)
      | cons y ys =>
        by_cases hy : y = 0
        · subst hy; rw [left_first_cons_zero] at h2; exact absurd h2 (by simp)
        · cases c with
          | nil => rw [left_first_cons_nil hy] at h2; exact absurd h2 (by simp)
          | cons z zs =>
            rw [left_first_cons_cons hx] at h1 ⊢
            rw [left_first_cons_cons hy] at h2
            by_cases hxy : x = y
            · subst hxy
              by_cases hxz : x = z
              · subst hxz
                simp only [if_true] at h1 h2 ⊢
                exact left_first_trans xs ys zs h1 h2
              · simp only [hxz, if_false, if_true] at h1 h2 ⊢
                exact h2
            · simp only [hxy, if_false, decide_eq_true_eq] at h1
              by_cases hyz : y = z
              · subst hyz
                simp only [hxy, if_false, decide_eq_true_eq]
                exact h1
              · simp only [hyz, if_false, decide_eq_true_eq] at h2
                have hxz : x ≠ z := by omega
                simp only [hxz, if_false, decide_eq_true_eq]
                omega

theorem left_first_asymm (a b : List Nat) (h : left_first a b = true) :
    left_first b a = false := by
  by_contra h2
  have h3 : left_first b a = true := by simpa using h2
  have := left_first_trans a b a h h3
  rw [left_first_irrefl] at this
  exact absurd this (by simp)

/-! ### The order left by the sort -/

theorem mem_insert_node (x : Node) (S : List Node) (w : Node) :
    w ∈ insert_node x S ↔ w = x ∨ w ∈ S := by
  rw [(perm_insert_node x S).mem_iff, List.mem_cons]

theorem sublist_insert_node (x : Node) : ∀ S : List Node, List.Sublist S (insert_node x S)
  | [] => List.nil_sublist _
  | y :: r => by
    by_cases hxy : node_first x y = true
    · simp only [insert_node, hxy, if_true]
      exact List.sublist_cons_self _ _
    · simp only [insert_node, hxy, if_false]
      exact (sublist_insert_node x r).cons₂ y

/-- Inserting an element keeps the list free of inversions: no element is
followed by one that tests smaller than it. -/
theorem pairwise_insert_node (x : Node) :
    ∀ S : List Node, S.Pairwise (fun a b => node_first b a = false) →
      (insert_node x S).Pairwise (fun a b => node_first b a = false)
  | [], _ => by simp [insert_node]
  | y :: r, hS => by
    rw [List.pairwise_cons] at hS
    by_cases hxy : node_first x y = true
    · simp only [insert_node, hxy, if_true]
      refine List.Pairwise.cons ?_ (List.Pairwise.cons hS.1 hS.2)
      intro u hu
      rw [List.mem_cons] at hu
      rcases hu with rfl | hu
      · exact left_first_asymm _ _ hxy
      · by_contra hux
        have hux' : node_first u x = true := by simpa using hux
        have := left_first_trans _ _ _ hux' hxy
        have h2 : node_first u y = false := hS.1 u hu
        rw [node_first] at h2
        rw [h2] at this
        exact absurd this (by simp)
    · simp only [insert_node, hxy, if_false]
      refine List.Pairwise.cons ?_ (pairwise_insert_node x r hS.2)
      intro w hw
      rw [mem_insert_node] at hw
      rcases hw with rfl | hw
      · simpa using hxy
      · exact hS.1 w hw

theorem pairwise_sort_nodes :
    ∀ nodes : List Node, (sort_nodes nodes).Pairwise (fun a b => node_first b a = false)
  | [] => List.Pairwise.nil
  | x :: xs => pairwise_insert_node x _ (pairwise_sort_nodes xs)

/-- An element goes behind every element of the sorted list that holds the
same string. -/
theorem insert_node_behind_equal (x y : Node) (heq : c_string x.2 = c_string y.2) :
    ∀ S : List Node, S.Pairwise (fun a b => node_first b a = false) → y ∈ S →
      List.Sublist [y, x] (insert_node x S)
  | [], _, hy => absurd hy (List.not_mem_nil _)
  | u :: r, hS, hy => by
    rw [List.pairwise_cons] at hS
    have hxu : ∀ w : Node, node_first x w = node_first y w := by
      intro w
      simp only [node_first]
      rw [← left_first_c_string x.2, ← left_first_c_string y.2, heq]
    by_cases hyu : y = u
    · subst hyu
      have h1 : node_first x y = false := by
        rw [hxu, node_first]; exact left_first_irrefl _
      simp only [insert_node, h1, Bool.false_eq_true, if_false]
      refine List.Sublist.cons₂ y ?_
      rw [List.singleton_sublist, mem_insert_node]
      exact Or.inl rfl
    · have hyr : y ∈ r := by
        rcases List.mem_cons.1 hy with h | h
        · exact absurd h hyu
        · exact h
      have h1 : node_first x u = false := by
        rw [hxu]; exact hS.1 y hyr
      simp only [insert_node, h1, Bool.false_eq_true, if_false]
      exact (insert_node_behind_equal x y heq r hS.2 hyr).cons u

theorem sort_nodes_reverses_equal (x y : Node) (heq : c_string x.2 = c_string y.2) :
    ∀ nodes : List Node, List.Sublist [x, y] nodes → List.Sublist [y, x] (sort_nodes nodes)
  | [], h => by simp at h
  | n :: rest, h => by
    simp only [sort_nodes]
    cases h with
    | cons _ h1 =>
      exact (sort_nodes_reverses_equal x y heq rest h1).trans (sublist_insert_node n _)
    | cons₂ _ h1 =>
      have hy : y ∈ sort_nodes rest := by
        rw [(perm_sort_nodes rest).mem_iff]
        exact List.singleton_sublist.1 h1
      exact insert_node_behind_equal x y heq _ (pairwise_sort_nodes rest) hy

/-- C13 (counterexample): the queue holds the string `"a"` twice, the element
at address 1 before the element at address 2; after `q_sort` the element at
address 2 comes first: the two equal elements have changed places. -/
theorem q_sort_not_stable :
    aa_state.bind (q_nodes 3) = some [(1, bytes "a"), (2, bytes "a")] ∧
    (aa_state.bind (q_sort 4)).bind (q_nodes 3) = some [(2, bytes "a"), (1, bytes "a")] := by
  decide

/-- C13 (amended): `q_sort` reverses the relative order of equal strings: for
every well-formed queue, if the element `x` comes before the element `y` and
both hold the same string, then `y` comes before `x` after the sort. -/
theorem q_sort_reverses_equal (st : State) (nodes : List Node) (fuel : Nat) (x y : Node)
    (hwf : WF st nodes) (hf : nodes.length + 1 < fuel)
    (heq : c_string x.2 = c_string y.2) (hsub : List.Sublist [x, y] nodes) :
    ∃ st' nodes', q_sort fuel st = some st' ∧ WF st' nodes' ∧
      List.Sublist [y, x] nodes' := by
  obtain ⟨st', hrun, hwf', _⟩ := q_sort_spec hwf hf
  exact ⟨st', sort_nodes nodes, hrun, hwf', sort_nodes_reverses_equal x y heq nodes hsub⟩

theorem demo_state_aa_wf : WF demo_state_aa [(1, [97]), (2, [97])] :=
  ⟨_, rfl, ⟨rfl, some 2, rfl, rfl, none, rfl, rfl⟩, rfl, rfl⟩

theorem q_sort_reverses_equal_witness :
    WF demo_state_aa [(1, [97]), (2, [97])] ∧
    [(1, [97]), ((2 : Nat), [(97 : Nat)])].length + 1 < 4 ∧
    c_string [97] = c_string [97] ∧
    List.Sublist [(1, [97]), ((2 : Nat), [(97 : Nat)])] [(1, [97]), (2, [97])] ∧
    ∃ st' nodes', q_sort 4 demo_state_aa = some st' ∧ WF st' nodes' ∧
      List.Sublist [((2 : Nat), [(97 : Nat)]), (1, [97])] nodes' :=
  ⟨demo_state_aa_wf, by decide, rfl, List.Sublist.refl _,
    q_sort_reverses_equal demo_state_aa [(1, [97]), (2, [97])] 4 (1, [97]) (2, [97])
      demo_state_aa_wf (by decide) rfl (List.Sublist.refl _)⟩

/-! ### Recursion depth of the sort -/

/-- The instrumented function computes what `q_mergeSort` computes. -/
theorem q_mergeSort_frames_proj (fuel : Nat) :
    ∀ (h : Heap) (p : Option Nat),
      (q_mergeSort_frames fuel h p).map (fun r => (r.1, r.2.1)) = q_mergeSort fuel h p := by
  induction fuel with
  | zero => intro h p; rfl
  | succ f ih =>
    intro h p
    cases p with
    | none => rfl
    | some s =>
      simp only [q_mergeSort_frames, q_mergeSort]
      cases hs : h s with
      | none => rfl
      | some se =>
        simp only
        cases hn : se.next with
        | none => rfl
        | some r =>
          simp only
          rw [← ih (h.set s { se with next := none }) (some s)]
          cases h1 : q_mergeSort_frames f (h.set s { se with next := none }) (some s) with
          | none => rfl
          | some r1 =>
            obtain ⟨h1', left, d1⟩ := r1
            simp only [Option.map_some']
            rw [← ih h1' (some r)]
            cases h2 : q_mergeSort_frames f h1' (some r) with
            | none => rfl
            | some r2 =>
              obtain ⟨h2', right, d2⟩ := r2
              simp only [Option.map_some', Option.map_map]
              cases merge_loop f h2' (some s) none left right <;> rfl

theorem q_mergeSort_frames_chain (nodes : List Node) :
    ∀ (h : Heap) (p : Option Nat) (fuel : Nat), chain h p nodes → nodes.length + 1 < fuel →
      q_mergeSort_frames fuel h p =
        (q_mergeSort fuel h p).map (fun r => (r.1, r.2, max 1 nodes.length)) := by
  induction nodes with
  | nil =>
    intro h p fuel hc hf
    obtain ⟨f, rfl⟩ : ∃ f, fuel = f + 1 := ⟨fuel - 1, by omega⟩
    have hp : p = none := hc
    subst hp
    rfl
  | cons x rest ih =>
    intro h p fuel hc hf
    obtain ⟨f, rfl⟩ : ∃ f, fuel = f + 1 := ⟨fuel - 1, by omega⟩
    have hxr := chain_not_mem_tail hc
    obtain ⟨hp, nx, hx, hrest⟩ := hc
    subst hp
    cases rest with
    | nil =>
      have hnx : nx = none := hrest
      subst hnx
      simp [q_mergeSort_frames, q_mergeSort, hx]
    | cons y rest2 =>
      have hnx : nx = some y.1 := hrest.1
      subst hnx
      obtain ⟨f2, rfl⟩ : ∃ f2, f = f2 + 1 := ⟨f - 1, by simp at hf; omega⟩
      have hih := ih (h.set x.1 { value := x.2, next := none }) (some y.1) (f2 + 1)
        (chain_set_of_not_mem _ hxr hrest) (by simp at hf ⊢; omega)
      have e1 : q_mergeSort_frames (f2 + 1) (h.set x.1 { value := x.2, next := none })
          (some x.1) = some (h.set x.1 { value := x.2, next := none }, some x.1, 1) := by
        simp [q_mergeSort_frames, heap_set_same]
      have e2 : q_mergeSort (f2 + 1) (h.set x.1 { value := x.2, next := none })
          (some x.1) = some (h.set x.1 { value := x.2, next := none }, some x.1) := by
        simp [q_mergeSort, heap_set_same]
      rw [q_mergeSort_frames, q_mergeSort]
      simp only [hx, e1, e2, hih]
      cases q_mergeSort (f2 + 1) (h.set x.1 { value := x.2, next := none }) (some y.1) with
      | none => rfl
      | some r2 =>
        obtain ⟨h2, right⟩ := r2
        simp only [Option.map_some']
        cases merge_loop (f2 + 1) h2 (some x.1) none (some x.1) right with
        | none => rfl
        | some m =>
          simp only [Option.map_some', List.length_cons, Option.some.injEq, Prod.mk.injEq,
            true_and]
          omega

/-- C18 (counterexample): on a chain of 4 elements the calls of `q_mergeSort`
nest 4 deep, more than `ceil(log2 4) + 1 = 3`. -/
theorem q_mergeSort_depth_four :
    (walk_nodes 5 demo_heap4 (some 1)).map List.length = some 4 ∧
    (q_mergeSort_frames 6 demo_heap4 (some 1)).map (fun r => r.2.2) = some 4 ∧
    Nat.clog 2 4 + 1 = 3 := by
  refine ⟨by decide, by decide, ?_⟩
  have : Nat.clog 2 (2 ^ 2) = 2 := Nat.clog_pow 2 2 (by decide)
  simpa using this

/-- C18 (amended): `q_mergeSort` splits the chain after its first element (the
left part is that single element, the right part is the rest), so on a chain
of `n ≥ 1` elements its recursive calls nest to a depth of exactly `n`
frames: linear in `n`, not logarithmic. -/
theorem q_mergeSort_depth_linear (h : Heap) (p : Option Nat) (nodes : List Node) (fuel : Nat)
    (hc : chain h p nodes) (hn : 1 ≤ nodes.length) (hf : nodes.length + 1 < fuel) :
    ∃ h' p', q_mergeSort fuel h p = some (h', p') ∧
      q_mergeSort_frames fuel h p = some (h', p', nodes.length) := by
  obtain ⟨h', p', hrun, _, _⟩ := q_mergeSort_spec nodes h p fuel hc hf
  refine ⟨h', p', hrun, ?_⟩
  rw [q_mergeSort_frames_chain nodes h p fuel hc hf, hrun]
  simp only [Option.map_some', Option.some.injEq, Prod.mk.injEq, true_and]
  omega

theorem demo_heap4_chain :
    chain demo_heap4 (some 1) [(1, [100]), (2, [99]), (3, [98]), (4, [97])] :=
  ⟨rfl, some 2, rfl, rfl, some 3, rfl, rfl, some 4, rfl, rfl, none, rfl, rfl⟩

theorem q_mergeSort_depth_linear_witness :
    chain demo_heap4 (some 1) [(1, [100]), (2, [99]), (3, [98]), (4, [97])] ∧
    1 ≤ [(1, [100]), (2, [99]), (3, [98]), ((4 : Nat), [(97 : Nat)])].length ∧
    [(1, [100]), (2, [99]), (3, [98]), ((4 : Nat), [(97 : Nat)])].length + 1 < 6 ∧
    ∃ h' p', q_mergeSort 6 demo_heap4 (some 1) = some (h', p') ∧
      q_mergeSort_frames 6 demo_heap4 (some 1) =
        some (h', p', [(1, [100]), (2, [99]), (3, [98]), ((4 : Nat), [(97 : Nat)])].length) :=
  ⟨demo_heap4_chain, by decide, by decide,
    q_mergeSort_depth_linear demo_heap4 (some 1) [(1, [100]), (2, [99]), (3, [98]), (4, [97])]
      6 demo_heap4_chain (by decide) (by decide)⟩

/-! ### Bounded and full comparison -/

theorem strcmp_nil_left (b : List Nat) : strcmp [] b = 0 - (b.headD 0 : Int) := by
  simp [strcmp]

theorem strcmp_cons_zero (cs b : List Nat) : strcmp (0 :: cs) b = 0 - (b.headD 0 : Int) := by
  cases b with
  | nil => simp [strcmp]
  | cons d ds =>
    by_cases hd : d = 0
    · subst hd; simp [strcmp]
    · have : ¬ (0 = d) := fun e => hd e.symm
      simp [strcmp, this]

theorem strcmp_cons_nil {c : Nat} (hc : c ≠ 0) (cs : List Nat) :
    strcmp (c :: cs) [] = (c : Int) := by
  simp [strcmp, hc]

theorem strcmp_cons_cons {c : Nat} (hc : c ≠ 0) (cs : List Nat) (d : Nat) (ds : List Nat) :
    strcmp (c :: cs) (d :: ds) = if c = d then strcmp cs ds else (c : Int) - (d : Int) := by
  by_cases hcd : c = d
  · subst hcd; simp [strcmp, hc]
  · simp [strcmp, hcd]

theorem strncmp_nil_left (b : List Nat) (n : Nat) :
    strncmp [] b (n + 1) = 0 - (b.headD 0 : Int) := by
  cases b with
  | nil => simp [strncmp]
  | cons d ds =>
    by_cases hd : d = 0
    · subst hd; simp [strncmp]
    · have : ¬ (0 = d) := fun e => hd e.symm
      simp [strncmp, this]

theorem strncmp_cons_zero (cs b : List Nat) (n : Nat) :
    strncmp (0 :: cs) b (n + 1) = 0 - (b.headD 0 : Int) := by
  cases b with
  | nil => simp [strncmp]
  | cons d ds =>
    by_cases hd : d = 0
    · subst hd; simp [strncmp]
    · have : ¬ (0 = d) := fun e => hd e.symm
      simp [strncmp, this]

/-- The bounded comparison with a bound beyond the end of the left string is
the full comparison. -/
theorem strncmp_eq_strcmp :
    ∀ (a b : List Nat) (n : Nat), strlen a < n → strncmp a b n = strcmp a b
  | [], b, n + 1, _ => by rw [strncmp_nil_left, strcmp_nil_left]
  | c :: cs, b, n + 1, h => by
    by_cases hc : c = 0
    · subst hc
      rw [strcmp_cons_zero, strncmp_cons_zero]
    · rw [strlen_cons_ne hc] at h
      have ih := strncmp_eq_strcmp cs b.tail n (by omega)
      simp only [strncmp, strcmp, List.headD_cons, List.tail_cons, ih]

theorem c_string_eq_nil_headD {b : List Nat} (h : c_string b = []) : b.headD 0 = 0 := by
  cases b with
  | nil => rfl
  | cons d ds =>
    by_cases hd : d = 0
    · simp [hd]
    · rw [c_string_cons_ne hd] at h; exact absurd h (by simp)

/-- When the bounded test says "smaller", so does the full comparison. -/
theorem strcmp_neg_of_left_first :
    ∀ a b : List Nat, left_first a b = true → strcmp a b < 0
  | [], b, h => by rw [left_first_nil] at h; exact absurd h (by simp)
  | c :: cs, b, h => by
    by_cases hc : c = 0
    · subst hc; rw [left_first_cons_zero] at h; exact absurd h (by simp)
    · cases b with
      | nil => rw [left_first_cons_nil hc] at h; exact absurd h (by simp)
      | cons d ds =>
        rw [left_first_cons_cons hc] at h
        rw [strcmp_cons_cons hc]
        by_cases hcd : c = d
        · simp only [hcd, if_true] at h ⊢
          exact strcmp_neg_of_left_first cs ds h
        · simp only [hcd, if_false, decide_eq_true_eq] at h ⊢
          omega

/-- When the full comparison says "smaller" and the left string is not a
proper initial part of the right one, the bounded test says "smaller" too. -/
theorem left_first_of_strcmp_neg :
    ∀ a b : List Nat, strcmp a b < 0 →
      (c_string a <+: c_string b → c_string a = c_string b) → left_first a b = true
  | [], b, h, hp => by
    have hb := hp (by rw [c_string_nil]; exact List.nil_prefix)
    rw [c_string_nil] at hb
    rw [strcmp_nil_left, c_string_eq_nil_headD hb.symm] at h
    simp at h
  | c :: cs, b, h, hp => by
    by_cases hc : c = 0
    · subst hc
      rw [c_string_cons_zero] at hp
      have hb := hp List.nil_prefix
      rw [strcmp_cons_zero, c_string_eq_nil_headD hb.symm] at h
      simp at h
    · cases b with
      | nil =>
        rw [strcmp_cons_nil hc] at h
        omega
      | cons d ds =>
        rw [strcmp_cons_cons hc] at h
        rw [left_first_cons_cons hc]
        by_cases hcd : c = d
        · subst hcd
          simp only [if_true] at h ⊢
          apply left_first_of_strcmp_neg cs ds h
          intro hpre
          rw [c_string_cons_ne hc, c_string_cons_ne hc] at hp
          have := hp (List.cons_prefix_cons.2 ⟨rfl, hpre⟩)
          exact (List.cons.inj this).2
        · simp only [hcd, if_false, decide_eq_true_eq] at h ⊢
          omega

theorem strcmp_antisymm : ∀ a b : List Nat, strcmp a b = - strcmp b a
  | [], [] => by simp [strcmp]
  | [], d :: ds => by
    by_cases hd : d = 0
    · subst hd; rw [strcmp_cons_zero, strcmp_nil_left]; simp
    · rw [strcmp_cons_nil hd, strcmp_nil_left]; simp
  | c :: cs, [] => by
    by_cases hc : c = 0
    · subst hc; rw [strcmp_cons_zero, strcmp_nil_left]; simp
    · rw [strcmp_cons_nil hc, strcmp_nil_left]; simp
  | c :: cs, d :: ds => by
    by_cases hc : c = 0
    · subst hc
      rw [strcmp_cons_zero]
      by_cases hd : d = 0
      · subst hd; rw [strcmp_cons_zero]; simp
      · rw [strcmp_cons_cons hd]; simp [hd]
    · by_cases hd : d = 0
      · subst hd
        rw [strcmp_cons_zero, strcmp_cons_cons hc]; simp [hc]
      · rw [strcmp_cons_cons hc, strcmp_cons_cons hd]
        by_cases hcd : c = d
        · subst hcd; simp only [if_true]; exact strcmp_antisymm cs ds
        · have hdc : d ≠ c := fun e => hcd e.symm
          simp only [hcd, hdc, if_false]; ring

/-- When `b` does not test smaller than `a` and is not a proper initial part
of `a`, the full comparison puts `a` before `b` or makes them equal. -/
theorem strcmp_le_of_not_left_first (a b : List Nat) (h : left_first b a = false)
    (hp : c_string b <+: c_string a → c_string b = c_string a) : strcmp a b ≤ 0 := by
  by_contra hgt
  have h1 : strcmp b a < 0 := by
    rw [strcmp_antisymm b a]; omega
  have := left_first_of_strcmp_neg b a h1 hp
  rw [h] at this
  exact absurd this (by simp)

/-- C19: for every well-formed queue in which no element's string is a proper
initial part of another element's string, `q_sort` leaves the strings in
ascending (non-decreasing) order under the full comparison `strcmp`, and on
the strings of such a queue the length-bounded test of the merge agrees with
the full comparison. -/
theorem q_sort_ascending_without_proper_prefixes (st : State) (nodes : List Node) (fuel : Nat)
    (hwf : WF st nodes) (hf : nodes.length + 1 < fuel)
    (hpre : ∀ x ∈ nodes, ∀ y ∈ nodes,
      c_string x.2 <+: c_string y.2 → c_string x.2 = c_string y.2) :
    ∃ st' nodes', q_sort fuel st = some st' ∧ WF st' nodes' ∧ nodes'.Perm nodes ∧
      (strings nodes').Pairwise (fun a b => strcmp a b ≤ 0) ∧
      (∀ x ∈ nodes, ∀ y ∈ nodes, (left_first x.2 y.2 = true ↔ strcmp x.2 y.2 < 0)) := by
  obtain ⟨st', hrun, hwf', _⟩ := q_sort_spec hwf hf
  refine ⟨st', sort_nodes nodes, hrun, hwf', perm_sort_nodes nodes, ?_, ?_⟩
  · rw [strings, List.pairwise_map]
    refine (pairwise_sort_nodes nodes).imp_of_mem ?_
    intro a b ha hb hab
    rw [(perm_sort_nodes nodes).mem_iff] at ha hb
    exact strcmp_le_of_not_left_first a.2 b.2 hab (hpre b hb a ha)
  · intro x hx y hy
    exact ⟨strcmp_neg_of_left_first x.2 y.2,
      fun h => left_first_of_strcmp_neg x.2 y.2 h (hpre x hx y hy)⟩

theorem q_sort_ascending_without_proper_prefixes_witness :
    WF demo_state_ba [(1, [98]), (2, [97])] ∧
    [(1, [98]), ((2 : Nat), [(97 : Nat)])].length + 1 < 4 ∧
    (∀ x ∈ [(1, [98]), ((2 : Nat), [(97 : Nat)])], ∀ y ∈ [(1, [98]), ((2 : Nat), [(97 : Nat)])],
      c_string x.2 <+: c_string y.2 → c_string x.2 = c_string y.2) ∧
    ∃ st' nodes', q_sort 4 demo_state_ba = some st' ∧ WF st' nodes' ∧
      nodes'.Perm [(1, [98]), (2, [97])] ∧
      (strings nodes').Pairwise (fun a b => strcmp a b ≤ 0) ∧
      (∀ x ∈ [(1, [98]), ((2 : Nat), [(97 : Nat)])],
        ∀ y ∈ [(1, [98]), ((2 : Nat), [(97 : Nat)])],
          (left_first x.2 y.2 = true ↔ strcmp x.2 y.2 < 0)) :=
  ⟨demo_state_ba_wf, by decide, by decide,
    q_sort_ascending_without_proper_prefixes demo_state_ba [(1, [98]), (2, [97])] 4
      demo_state_ba_wf (by decide) (by decide)⟩

/-- C20 (failing input): on the queue `["ab", "abc"]` one call of `q_sort`
leaves `["abc", "ab"]` and a second call leaves `["ab", "abc"]`: the second
sort changes the order left by the first. -/
theorem q_sort_twice_differs :
    (ab_abc_state.bind (q_sort 4)).bind (q_strings 4) = some [bytes "abc", bytes "ab"] ∧
    ((ab_abc_state.bind (q_sort 4)).bind (q_sort 4)).bind (q_strings 4) =
      some [bytes "ab", bytes "abc"] := by
  decide

end LabQueue
